import Mathlib

/-!
Verification of the n-gram context analyzer (Rust) against its
natural-language specification.

Modelling conventions (shallow embedding):
* Rust `String`/`&str` values are modelled as `List Char` (`Str` below);
  all string operations used by the code (splitting, lowercasing,
  substring containment, whitespace tokenization, trimming) are
  re-implemented as structural recursions over `List Char` so that they
  evaluate inside the kernel.  Lowercasing is the ASCII mapping of
  `Char.toLower`, matching Rust's behaviour on ASCII text.
* Machine integers `i32`/`i64` are modelled as `Int` (no arithmetic in
  the verified paths comes near the `i32` bounds except where an
  explicit bound check is part of the code, e.g. `str::parse::<i32>`,
  which is modelled with its bounds).
* `f64` arithmetic in the predictor is modelled over `ℚ`; the final
  `-log10(x) * 10^4` rounding step has no exact rational counterpart and
  is abstracted as a parameter `scoreFn : ℚ → ℚ` applied exactly where
  the code applies the log/round transform.  Division by zero in `ℚ`
  yields `0` (Lean's convention) where `f64` would yield `inf`/`NaN`;
  the control-flow facts proved below (no error path is taken) do not
  depend on the junk value.
* Fallible Rust code (`Result`, panicking `unwrap`) is modelled with
  `Except`/`Option`.
* The database session is out of scope (§1 of the spec); the row stream
  an executed statement produces is passed to each modelled function as
  an explicit argument (`rows : List (Str × Int)`), and the fallible
  driver steps (prepare / execute) as explicit `Except` arguments.
* Channel-based fan-in (`std::sync::mpsc`) delivers messages in an
  order that depends on task completion; the drain loops are therefore
  modelled over an explicit `received`/`arrival` list, quantified or
  constrained to be a permutation of the per-task messages.
-/

namespace NGramCA

/-- Rust `String` / `&str`, modelled as a list of characters. -/
abbrev Str := List Char

instance {ε α : Type} [DecidableEq ε] [DecidableEq α] :
    DecidableEq (Except ε α) := fun a b =>
  match a, b with
  | .ok x, .ok y =>
    if h : x = y then .isTrue (by rw [h]) else .isFalse (by intro hc; cases hc; exact h rfl)
  | .ok _, .error _ => .isFalse (by intro hc; cases hc)
  | .error _, .ok _ => .isFalse (by intro hc; cases hc)
  | .error x, .error y =>
    if h : x = y then .isTrue (by rw [h]) else .isFalse (by intro hc; cases hc; exact h rfl)

/-- Rust `str::to_lowercase`, restricted to its ASCII action
(`Char.toLower` maps `A`..`Z` to `a`..`z` and fixes everything else). -/
def toLowerStr (s : Str) : Str := s.map Char.toLower

/-- Rust `str::contains(&str)`: `pat` occurs as a contiguous substring
of `s`.  (`s.contains("") = true`, as in Rust.) -/
def containsSub (s pat : Str) : Bool :=
  pat.isPrefixOf s ||
    match s with
    | [] => false
    | _ :: t => containsSub t pat

/-- Rust `str::split(char)`: splits on every occurrence of `c`;
an empty input yields `[[]]`, like Rust's `"".split(c)`. -/
def splitOnChar (c : Char) : Str → List Str
  | [] => [[]]
  | x :: xs =>
    if x = c then [] :: splitOnChar c xs
    else
      match splitOnChar c xs with
      | t :: ts => (x :: t) :: ts
      | [] => [[x]]

/-- Rust `str::split(&str)` for a two-character separator `[a, b]`
(the code only splits on `". "` and `", "`): leftmost, non-overlapping. -/
def splitOn2 (a b : Char) : Str → List Str
  | [] => [[]]
  | [x] => [[x]]
  | x :: y :: rest =>
    if x = a ∧ y = b then [] :: splitOn2 a b rest
    else
      match splitOn2 a b (y :: rest) with
      | t :: ts => (x :: t) :: ts
      | [] => [[x]]

/-- Rust `str::split_whitespace`: maximal runs of non-whitespace
characters; no empty tokens. -/
def splitWs : Str → List Str
  | [] => []
  | c :: rest =>
    if c.isWhitespace then splitWs rest
    else
      match splitWs rest with
      | [] => [[c]]
      | t :: ts =>
        match rest with
        | [] => [[c]]
        | r :: _ => if r.isWhitespace then [c] :: t :: ts else (c :: t) :: ts

/-- Rust `str::trim`: strip whitespace from both ends. -/
def trimStr (s : Str) : Str :=
  ((s.dropWhile Char.isWhitespace).reverse.dropWhile Char.isWhitespace).reverse

/-- `str::repeat` composed with concatenation: `n` copies of `s`. -/
def repeatStr (n : Nat) (s : Str) : Str := (List.replicate n s).flatten

/-- The number of whitespace-delimited tokens
(Rust `input.split_whitespace().count()`). -/
def numTokens (s : Str) : Int := (splitWs s).length

/-! ### `src/db.rs`: statement catalog, `QueryError`, `execute_one`,
`get_n_gram_string` -/

def GET_FREQ_3 : Str :=
  "SELECT freq FROM n_grams.three_grams_1_2_pk WHERE word_1 = ? AND word_2 = ? AND word_3 = ?".toList

def GET_ALL_VARYING_3_3 : Str :=
  "SELECT word_3, freq FROM n_grams.three_grams_1_2_pk WHERE word_1 = ? AND word_2 = ? AND word_3 IN ".toList

def GET_ALL_VARYING_3_1 : Str :=
  "SELECT word_1, freq FROM n_grams.three_grams_2_3_pk WHERE word_2 = ? AND word_3 = ? AND word_1 IN ".toList

def GET_BY_SECOND_AND_THIRD_3 : Str :=
  "SELECT word_1, freq FROM n_grams.three_grams_2_3_pk WHERE word_2 = ? AND word_3 = ?".toList

def GET_BY_FIRST_AND_THIRD_3 : Str :=
  "SELECT word_2, freq FROM n_grams.three_grams_1_3_pk WHERE word_1 = ? AND word_3 = ?".toList

def GET_BY_FIRST_AND_SECOND_3 : Str :=
  "SELECT word_3, freq FROM n_grams.three_grams_1_2_pk WHERE word_1 = ? AND word_2 = ?".toList

def GET_FREQ_2 : Str :=
  "SELECT freq FROM n_grams.two_grams_1_pk WHERE word_1 = ? AND word_2 = ?".toList

def GET_ALL_VARYING_2_2 : Str :=
  "SELECT word_2, freq FROM n_grams.two_grams_1_pk WHERE word_1 = ? AND word_2 IN ".toList

def GET_ALL_VARYING_2_1 : Str :=
  "SELECT word_1, freq FROM n_grams.two_grams_2_pk WHERE word_2 = ? AND word_1 IN ".toList

def GET_BY_SECOND_2 : Str :=
  "SELECT word_1, freq FROM n_grams.two_grams_2_pk WHERE word_2 = ?".toList

def GET_BY_FIRST_2 : Str :=
  "SELECT word_2, freq FROM n_grams.two_grams_1_pk WHERE word_1 = ?".toList

def GET_ALL_VARYING_1 : Str :=
  "SELECT * FROM n_grams.one_grams WHERE word IN ".toList

/-- `QueryError` (src/db.rs): the two error kinds of a query execution. -/
inductive QueryError
  | ScyllaError
  | NotFound
deriving DecidableEq, Repr

/-- A row of a varied-position query: `(word, freq: i32)`. -/
abbrev Row := Str × Int

/-- `QueryFactory::execute_one` (src/db.rs).  The underlying driver call
(`session.execute_iter`) is external to the repository; its outcome is
passed in as `driver` — either the list of rows the returned stream will
yield, or a driver error.  `execute_one` wraps a driver failure into
`QueryError::ScyllaError` and otherwise forwards the stream; note that it
never constructs `QueryError::NotFound` — an empty stream is returned as
`ok []`. -/
def executeOne (driver : Except Unit (List Row)) : Except QueryError (List Row) :=
  match driver with
  | .ok rows => .ok rows
  | .error _ => .error QueryError.ScyllaError

/-- `QueryFactory::build` (src/db.rs): preparing the statement can fail
with `"Failed to prepare query"`; the success value (the prepared
statement handle) carries no further information in the model. -/
def queryFactoryBuild (prepareOk : Bool) : Except Str Unit :=
  if prepareOk then .ok () else .error "Failed to prepare query".toList

/-- `get_n_gram_string` (src/db.rs): reconstruct the n-gram text from the
rendered template, the static parameters and one varying word.  The Rust
function panics on an unrecognized query or missing static parameter;
the model returns `none` in those cases. -/
def getNGramString (query : Str) (staticParams : List Str) (varyingParam : Str) :
    Option Str :=
  if ("SELECT word_3, freq FROM n_grams.three_grams_1_2_pk WHERE word_1 = ? AND word_2 = ? AND word_3 IN".toList).isPrefixOf query then do
    let first ← staticParams[0]?
    let second ← staticParams[1]?
    pure (first ++ [' '] ++ second ++ [' '] ++ varyingParam)
  else if ("SELECT word_1, freq FROM n_grams.three_grams_2_3_pk WHERE word_2 = ? AND word_3 = ? AND word_1 IN".toList).isPrefixOf query then do
    let second ← staticParams[0]?
    let third ← staticParams[1]?
    pure (varyingParam ++ [' '] ++ second ++ [' '] ++ third)
  else if ("SELECT word_2, freq FROM n_grams.two_grams_1_pk WHERE word_1 = ? AND word_2 IN".toList).isPrefixOf query then do
    let first ← staticParams[0]?
    pure (first ++ [' '] ++ varyingParam)
  else if ("SELECT word_1, freq FROM n_grams.two_grams_2_pk WHERE word_2 = ? AND word_1 IN".toList).isPrefixOf query then do
    let second ← staticParams[0]?
    pure (varyingParam ++ [' '] ++ second)
  else if ("SELECT * FROM n_grams.one_grams WHERE word IN".toList).isPrefixOf query then
    pure varyingParam
  else
    none

/-! ### `src/n_grams.rs`: the `Queryable` and `Printable` traits,
modelled as a structure of functions -/

/-- The `Queryable` trait (src/n_grams.rs), as a record of its four
methods.  Error messages are the `String`s of the source. -/
structure QueryableModel (α : Type) where
  toVec : α → List Str
  getQuery : α → Option Int → Except Str Str
  getInput : α → Int → Except Str (List Str)
  getWord : α → Int → Except Str Str

/-! ### `src/n_grams/word_freq_pair.rs` -/

/-- `WordFreqPair`: a word and its frequency. -/
structure WordFreqPair where
  word : Str
  frequency : Int
deriving DecidableEq, Repr

/-- `WordFreqPair::new`. -/
def WordFreqPair.new (word : Str) (frequency : Int) : WordFreqPair :=
  ⟨word, frequency⟩

/-- `WordFreqPair::find`: first pair whose word equals `word`. -/
def WordFreqPair.find (pairs : List WordFreqPair) (word : Str) :
    Option WordFreqPair :=
  pairs.find? (fun pair => pair.word == word)

/-- The order imposed by the comparator
`|a, b| b.frequency.cmp(&a.frequency)` of
`result.sort_by(...)` in `WordFreqPair::from`: `a` may precede `b`
exactly when `b.frequency ≤ a.frequency` (non-increasing frequency). -/
def freqGe (a b : WordFreqPair) : Prop := b.frequency ≤ a.frequency

instance : DecidableRel freqGe :=
  fun a b => inferInstanceAs (Decidable (b.frequency ≤ a.frequency))

instance : IsTotal WordFreqPair freqGe :=
  ⟨fun a b => le_total b.frequency a.frequency⟩

instance : IsTrans WordFreqPair freqGe :=
  ⟨fun _ _ _ hab hbc => le_trans hbc hab⟩

/-- Stated from the claim (C5): lexicographic-ascending comparison on
words, the tie-break order the claim asserts. -/
def lexLe : Str → Str → Bool
  | [], _ => true
  | _ :: _, [] => false
  | a :: as, b :: bs =>
    if a < b then true else if b < a then false else lexLe as bs

/-- Stated from the claim (C5): sorted by frequency descending, ties
broken by lexicographic ascending word order. -/
def sortedFreqDescLexAsc (l : List WordFreqPair) : Prop :=
  l.Pairwise (fun a b => b.frequency < a.frequency ∨
    (a.frequency = b.frequency ∧ lexLe a.word b.word = true))

instance (l : List WordFreqPair) : Decidable (sortedFreqDescLexAsc l) :=
  inferInstanceAs (Decidable (l.Pairwise (fun (a b : WordFreqPair) =>
    b.frequency < a.frequency ∨
      (a.frequency = b.frequency ∧ lexLe a.word b.word = true))))

/-- The materialize-and-sort tail of `WordFreqPair::from`: push one pair
per streamed row (in stream order), then `sort_by` the comparator above.
Rust's `sort_by` is a stable sort; `List.insertionSort` with `freqGe` is
the stable sort for the same comparator, hence computes the same list. -/
def sortedPairsOfRows (rows : List Row) : List WordFreqPair :=
  List.insertionSort freqGe (rows.map fun r => WordFreqPair.new r.1 r.2)

/-- `WordFreqPair::from` (src/n_grams/word_freq_pair.rs).  `prepareOk`
and `driver` stand for the two external driver interactions (see
`queryFactoryBuild`, `executeOne`); everything else follows the source:
resolve the template via `get_query(Some(index))`, prepare it, resolve
the parameters via `get_input(index)`, execute, materialize the rows and
sort by frequency descending. -/
def WordFreqPair.fromStore {α : Type} (Q : QueryableModel α)
    (prepareOk : Bool) (driver : Except Unit (List Row))
    (index : Int) (input : α) : Except Str (List WordFreqPair) :=
  match Q.getQuery input (some index) with
  | .error err => .error err
  | .ok _query =>
    match queryFactoryBuild prepareOk with
    | .error err => .error err
    | .ok _ =>
      match Q.getInput input index with
      | .error err => .error err
      | .ok _params =>
        match executeOne driver with
        | .error QueryError.ScyllaError => .error "Can not execute query".toList
        | .error QueryError.NotFound => .error "Word not found".toList
        | .ok rows => .ok (sortedPairsOfRows rows)

/-! ### `src/n_grams/three_grams/model.rs` and
`src/n_grams/two_grams/model.rs`: the two input types -/

/-- `ThreeGramInput`. -/
structure ThreeGramInput where
  word1 : Str
  word2 : Str
  word3 : Str
deriving DecidableEq, Repr

/-- The `Queryable` impl of `ThreeGramInput`. -/
def threeGramQueryable : QueryableModel ThreeGramInput where
  toVec g := [g.word1, g.word2, g.word3]
  getQuery _ index :=
    match index with
    | some 1 => .ok GET_BY_SECOND_AND_THIRD_3
    | some 2 => .ok GET_BY_FIRST_AND_THIRD_3
    | some 3 => .ok GET_BY_FIRST_AND_SECOND_3
    | some _ => .error "Invalid index".toList
    | none => .ok GET_FREQ_3
  getInput g index :=
    match index with
    | 1 => .ok [g.word2, g.word3]
    | 2 => .ok [g.word1, g.word3]
    | 3 => .ok [g.word1, g.word2]
    | _ => .error "Invalid index".toList
  getWord g index :=
    match index with
    | 1 => .ok g.word1
    | 2 => .ok g.word2
    | 3 => .ok g.word3
    | _ => .error "Invalid index".toList

/-- The `Printable` impl of `ThreeGramInput`:
`format!("{} {} {}", word1, word2, word3)`. -/
def ThreeGramInput.print (g : ThreeGramInput) : Str :=
  g.word1 ++ [' '] ++ g.word2 ++ [' '] ++ g.word3

/-- `TwoGramInput`. -/
structure TwoGramInput where
  word1 : Str
  word2 : Str
deriving DecidableEq, Repr

/-- The `Queryable` impl of `TwoGramInput`. -/
def twoGramQueryable : QueryableModel TwoGramInput where
  toVec g := [g.word1, g.word2]
  getQuery _ index :=
    match index with
    | some 1 => .ok GET_BY_SECOND_2
    | some 2 => .ok GET_BY_FIRST_2
    | some _ => .error "Invalid index".toList
    | none => .ok GET_FREQ_2
  getInput g index :=
    match index with
    | 1 => .ok [g.word2]
    | 2 => .ok [g.word1]
    | _ => .error "Invalid index".toList
  getWord g index :=
    match index with
    | 1 => .ok g.word1
    | 2 => .ok g.word2
    | _ => .error "Invalid index".toList

/-- The `Printable` impl of `TwoGramInput`. -/
def TwoGramInput.print (g : TwoGramInput) : Str :=
  g.word1 ++ [' '] ++ g.word2

/-! ### `src/lib.rs`: parameter parsing -/

/-- Decimal-digit accumulator for `str::parse::<i32>`: consume digits,
fail on any non-digit. -/
def digitsValAux : Str → Nat → Option Nat
  | [], acc => some acc
  | c :: rest, acc =>
    if c.isDigit then digitsValAux rest (acc * 10 + (c.toNat - 48)) else none

/-- The digit run of an `i32` literal: at least one digit, digits only. -/
def digitsVal : Str → Option Nat
  | [] => none
  | ds => digitsValAux ds 0

/-- Rust `str::parse::<i32>`: optional sign, one or more ASCII digits,
value within the `i32` range. -/
def parseI32 (s : Str) : Option Int :=
  match s with
  | '+' :: ds =>
    match digitsVal ds with
    | some n => if n ≤ 2147483647 then some (n : Int) else none
    | none => none
  | '-' :: ds =>
    match digitsVal ds with
    | some n => if n ≤ 2147483648 then some (-(n : Int)) else none
    | none => none
  | ds =>
    match digitsVal ds with
    | some n => if n ≤ 2147483647 then some (n : Int) else none
    | none => none

/-- The parse loop of `parse_varying_indexes`: parse every token, abort
on the first failure. -/
def parseAllI32 : List Str → Option (List Int)
  | [] => some []
  | t :: ts =>
    match parseI32 t with
    | none => none
    | some i =>
      match parseAllI32 ts with
      | none => none
      | some rest => some (i :: rest)

/-- `parse_varying_indexes` (src/lib.rs): split on `','`, parse each
token as `i32` (any failure is `"Invalid index"`), then run the supplied
validation function. -/
def parseVaryingIndexes (vary : Str)
    (validate : List Int → Except Str Unit) : Except Str (List Int) :=
  let indexesStr := splitOnChar ',' vary
  match parseAllI32 indexesStr with
  | none => .error "Invalid index".toList
  | some indexes =>
    match validate indexes with
    | .ok _ => .ok indexes
    | .error err => .error err

/-- The scan loop shared by the two `validate` functions
(src/n_grams/three_grams/model.rs, src/n_grams/two_grams/model.rs):
walk the indexes recording seen ones in `new`; reject an index outside
`[1..hi]` or one already seen. -/
def validateLoop (hi : Int) (new : List Int) :
    List Int → Except Str (List Int)
  | [] => .ok new
  | index :: rest =>
    if index < 1 ∨ index > hi then .error "Invalid index".toList
    else if new.contains index then .error "Invalid index".toList
    else validateLoop hi (new ++ [index]) rest

/-- `validate` (src/n_grams/three_grams/model.rs): bound 3, plus the
final (always-true) length comparison of the source. -/
def validate3 (indexes : List Int) : Except Str Unit :=
  match validateLoop 3 [] indexes with
  | .error e => .error e
  | .ok new =>
    if new.length ≠ indexes.length then .error "Invalid index".toList else .ok ()

/-- `validate` (src/n_grams/two_grams/model.rs): bound 2. -/
def validate2 (indexes : List Int) : Except Str Unit :=
  match validateLoop 2 [] indexes with
  | .error e => .error e
  | .ok new =>
    if new.length ≠ indexes.length then .error "Invalid index".toList else .ok ()

/-! ### `src/n_grams/vary_n_gram.rs` -/

/-- `VaryingNGram`: one varying slot of a direct query result. -/
structure VaryingNGram where
  index : Int
  word : Str
  solutions : List WordFreqPair
deriving DecidableEq, Repr

/-- `VaryingNGram::new`. -/
def VaryingNGram.new (index : Int) (word : Str)
    (solutions : List WordFreqPair) : VaryingNGram :=
  ⟨index, word, solutions⟩

/-- `VaryingNGram::find_freq`. -/
def VaryingNGram.findFreq (vary : VaryingNGram) (word : Str) :
    Except Str Int :=
  match WordFreqPair.find vary.solutions word with
  | some pair => .ok pair.frequency
  | none => .error "No pair found".toList

/-- `VaryingQueryResult` (the `time_taken` field, a wall-clock
measurement, is outside the model). -/
structure VaryingQueryResult where
  nGramLength : Int
  providedNGram : Str
  providedNGramFrequency : Int
  varyingIndexes : List Int
  vary : List VaryingNGram
deriving DecidableEq, Repr

/-- The per-index task `process` (src/n_grams/vary_n_gram.rs): fetch the
solutions via `WordFreqPair::from` and send one message on the channel —
the built `VaryingNGram` on success, the error otherwise.  `store`
supplies, per index, the two external driver outcomes of that task's
query (prepare success and the row stream). -/
def processVary {α : Type} (Q : QueryableModel α)
    (store : Int → Bool × Except Unit (List Row))
    (input : α) (index : Int) : Except Str VaryingNGram :=
  match WordFreqPair.fromStore Q (store index).1 (store index).2 index input with
  | .error err => .error err
  | .ok solutions =>
    match Q.getWord input index with
    | .error err => .error err
    | .ok word => .ok (VaryingNGram.new index word solutions)

/-- The per-slot truncation of `get_varying`
(`varying.solutions.truncate(amount as usize)` guarded by
`amount >= 0`). -/
def truncateSlot (amount : Int) (v : VaryingNGram) : VaryingNGram :=
  if 0 ≤ amount then { v with solutions := v.solutions.take amount.toNat }
  else v

/-- The receive loop of `get_varying` (`for received in rx`), with state
`(i, provided_n_gram_frequency, vary)`: the first `Ok` message's own
word is looked up in its solutions to set the provided frequency (left
unchanged when absent); every slot's solutions are truncated to `amount`
entries when `amount ≥ 0`; an `Err` message aborts the whole call. -/
def drainVary (amount : Int) :
    List (Except Str VaryingNGram) → Nat → Int → List VaryingNGram →
    Except Str (Int × List VaryingNGram)
  | [], _, freq, vary => .ok (freq, vary)
  | .error err :: _, _, _, _ => .error err
  | .ok varying :: rest, i, freq, vary =>
    drainVary amount rest (if i = 0 then i + 1 else i)
      (if i = 0 then
        match VaryingNGram.findFreq varying varying.word with
        | .ok f => f
        | .error _ => freq
      else freq)
      (vary ++ [truncateSlot amount varying])

/-- The provided frequency a successful drain records, as a function of
the received message order: the first message's slot looks its own word
up in its own solutions; absence (or an empty message list) leaves 0. -/
def providedOfMsgs : List (Except Str VaryingNGram) → Int
  | Except.ok v :: _ =>
    ((WordFreqPair.find v.solutions v.word).map WordFreqPair.frequency).getD 0
  | _ => 0

/-- `VaryingQueryResult::get_varying` (src/n_grams/vary_n_gram.rs).  The
spawned tasks produce the messages `processVary Q store input i` for the
requested indexes; the mpsc channel delivers them in task-completion
order, which the model takes as the explicit argument `received` (the
theorems relate it to the task messages by permutation).  The loop state
starts at `i = 0`, `provided_n_gram_frequency = 0`, `vary = []`. -/
def getVarying {α : Type} (print : α → Str)
    (input : α) (varyingIndexes : List Int) (amount : Int)
    (received : List (Except Str VaryingNGram)) :
    Except Str VaryingQueryResult :=
  match drainVary amount received 0 0 [] with
  | .error err => .error err
  | .ok (freq, vary) =>
    .ok { nGramLength := numTokens (print input)
          providedNGram := print input
          providedNGramFrequency := freq
          varyingIndexes := varyingIndexes
          vary := vary }

/-! ### `src/n_grams/solver.rs`: sentence splitting -/

/-- `parse_text_to_sentences` (src/n_grams/solver.rs): split on `". "`,
then each fragment on `", "`, then strip one trailing `'.'` from each
resulting sentence. -/
def parseTextToSentences (text : Str) : List Str :=
  let bySentence := splitOn2 '.' ' ' text
  let result := (bySentence.map (fun s => splitOn2 ',' ' ' s)).flatten
  result.map (fun s => if s.getLast? = some '.' then s.dropLast else s)

/-! ### `src/n_grams/solver/model.rs`: scanner and batch executor -/

/-- `QueryBuilder`: a rendered probe (template text, static parameters,
varying candidates). -/
structure QueryBuilder where
  query : Str
  staticParams : List Str
  varyingParams : List Str
deriving DecidableEq, Repr

/-- `Queries`: the probe family of one context, plus the examined word. -/
structure Queries where
  queries : List QueryBuilder
  word : Str
deriving DecidableEq, Repr

/-- Lookup in an association list, modelling `HashMap::get` (the
modelled maps are only ever extended with fresh keys, so first-match
lookup agrees with the map). -/
def lookupAssoc {β : Type} : List (Str × β) → Str → Option β
  | [], _ => none
  | kv :: rest, k => if kv.1 == k then some kv.2 else lookupAssoc rest k

/-- `extract_context` (src/n_grams/solver/model.rs): the whitespace-
joined window `words[max(0, j-2) ..= min(j+2, len-1)]`, trimmed. -/
def extractContext (index : Nat) (words : List Str) : Str :=
  let lo := index - 2
  let hi := min (index + 2) (words.length - 1)
  trimStr (((List.range' lo (hi + 1 - lo)).map
    (fun i => (words.getD i []) ++ [' '])).flatten)

/-- `add_to_query` (src/n_grams/solver/model.rs): static parameters are
the window with the varied slot removed; the rendered query appends
`"(?, ?, …)"` with one placeholder per confusion-set member. -/
def addToQuery (queryStr : Str) (window : List Str)
    (confusionSet : List Str) (queries : List QueryBuilder) (index : Nat) :
    List QueryBuilder :=
  let staticParams := window.eraseIdx index
  let q := queryStr ++ ['('] ++ repeatStr (confusionSet.length - 1) "?, ".toList
             ++ "?)".toList
  queries ++ [⟨q, staticParams, confusionSet⟩]

/-- `process_word_in_sentence` (src/n_grams/solver/model.rs): for every
position `j` whose word case-folds to `word`, build the probe family for
the five-word context window — the 1-gram probe, then the four
2- and 3-gram neighbour probes (each preceded by an extra probe with
lowercased neighbours when they are not already lowercase) — and insert
it under the context key unless that key is already present. -/
def processWordInSentence (word : Str) (words : List Str)
    (confusionSet : List Str) (queries : List (Str × Queries)) :
    List (Str × Queries) :=
  words.enum.foldl (fun queries jw =>
    let j := jw.1
    let w := jw.2
    if toLowerStr w = toLowerStr word then
      let context := extractContext j words
      if (lookupAssoc queries context).isSome then queries
      else
        let q0 : List QueryBuilder :=
          [⟨GET_ALL_VARYING_1 ++ ['(']
              ++ repeatStr (confusionSet.length - 1) "?, ".toList ++ "?)".toList,
            [], confusionSet⟩]
        let q1 :=
          if 1 ≤ j then
            let qa :=
              if words.getD (j - 1) [] ≠ toLowerStr (words.getD (j - 1) []) then
                addToQuery GET_ALL_VARYING_2_2
                  [toLowerStr (words.getD (j - 1) []), words.getD j []]
                  confusionSet q0 1
              else q0
            addToQuery GET_ALL_VARYING_2_2
              [words.getD (j - 1) [], words.getD j []] confusionSet qa 1
          else q0
        let q2 :=
          if j + 1 < words.length then
            let qa :=
              if words.getD (j + 1) [] ≠ toLowerStr (words.getD (j + 1) []) then
                addToQuery GET_ALL_VARYING_2_1
                  [words.getD j [], toLowerStr (words.getD (j + 1) [])]
                  confusionSet q1 0
              else q1
            addToQuery GET_ALL_VARYING_2_1
              [words.getD j [], words.getD (j + 1) []] confusionSet qa 0
          else q1
        let q3 :=
          if 2 ≤ j then
            let qa :=
              if words.getD (j - 2) [] ≠ toLowerStr (words.getD (j - 2) [])
                  ∨ words.getD (j - 1) [] ≠ toLowerStr (words.getD (j - 1) []) then
                addToQuery GET_ALL_VARYING_3_3
                  [toLowerStr (words.getD (j - 2) []),
                   toLowerStr (words.getD (j - 1) []), words.getD j []]
                  confusionSet q2 2
              else q2
            addToQuery GET_ALL_VARYING_3_3
              [words.getD (j - 2) [], words.getD (j - 1) [], words.getD j []]
              confusionSet qa 2
          else q2
        let q4 :=
          if j + 2 < words.length then
            let qa :=
              if words.getD (j + 1) [] ≠ toLowerStr (words.getD (j + 1) [])
                  ∨ words.getD (j + 2) [] ≠ toLowerStr (words.getD (j + 2) []) then
                addToQuery GET_ALL_VARYING_3_1
                  [words.getD j [], toLowerStr (words.getD (j + 1) []),
                   toLowerStr (words.getD (j + 2) [])]
                  confusionSet q3 0
              else q3
            addToQuery GET_ALL_VARYING_3_1
              [words.getD j [], words.getD (j + 1) [], words.getD (j + 2) []]
              confusionSet qa 0
          else q3
        queries ++ [(context, ⟨q4, word⟩)]
    else queries) queries

/-- `SolverWithConfusionSet::find_queries` (src/n_grams/solver/model.rs):
for each parsed sentence, each confusion group and each member word,
process the sentence for that member when the lowercased sentence
contains the member verbatim. -/
def findQueries (confusionSet : List (List Str)) (text : Str) :
    List (Str × Queries) :=
  let sentences := parseTextToSentences text
  sentences.foldl (fun queries sentence =>
    let words := splitWs sentence
    confusionSet.foldl (fun queries group =>
      group.foldl (fun queries word =>
        if containsSub (toLowerStr sentence) word then
          processWordInSentence word words group queries
        else queries) queries) queries) []

/-- Stated from the claim (C10), for comparison with `findQueries`: the
same scan, except that the iteration for the single member `skip` is
forced to be a no-op, i.e. no query set is ever emitted on behalf of
`skip`'s occurrences. -/
def findQueriesExcept (skip : Str) (confusionSet : List (List Str))
    (text : Str) : List (Str × Queries) :=
  let sentences := parseTextToSentences text
  sentences.foldl (fun queries sentence =>
    let words := splitWs sentence
    confusionSet.foldl (fun queries group =>
      group.foldl (fun queries word =>
        if word = skip then queries
        else if containsSub (toLowerStr sentence) word then
          processWordInSentence word words group queries
        else queries) queries) queries) []

/-- `QueryResult` (src/n_grams/solver/model.rs): one emitted row —
reconstructed n-gram text, frequency, token count. -/
structure QueryResult where
  input : Str
  frequency : Int
  length : Int
deriving DecidableEq, Repr

/-- `SentenceResult`: all rows attributed to one sentence context. -/
structure SentenceResult where
  sentence : Str
  word : Str
  results : List QueryResult
deriving DecidableEq, Repr

/-- One step of `execute_queries`' fan-in loop: append `qr` to the first
sentence result whose key equals `ctx` (the inner
`for sentence_result in &mut sentence_results { … break }`). -/
def pushResult (ctx : Str) (qr : QueryResult) :
    List SentenceResult → List SentenceResult
  | [] => []
  | sr :: rest =>
    if sr.sentence == ctx then
      { sr with results := sr.results ++ [qr] } :: rest
    else sr :: pushResult ctx qr rest

/-- `execute_queries` (src/n_grams/solver/model.rs), timing dropped.
`queries` is the key/value sequence the `HashMap` iteration yields at
enqueue time; the skeleton sentence results are pushed during that same
loop, before any task finishes; `arrival` is the order in which the
channel delivers the task messages, and each message is routed by
`pushResult`. -/
def executeQueries (queries : List (Str × Queries))
    (arrival : List (Str × QueryResult)) : List SentenceResult :=
  arrival.foldl (fun acc m => pushResult m.1 m.2 acc)
    (queries.map fun kv => ⟨kv.1, kv.2.word, []⟩)

/-- The row loop of the solver task `process`
(src/n_grams/solver/model.rs): one message per streamed row, the n-gram
text reconstructed by `get_n_gram_string` (whose panic is modelled as
`none`). -/
def rowMessages (query : Str) (staticValues : List Str) :
    List Row → Option (List QueryResult)
  | [] => some []
  | (word, freq) :: rest =>
    match getNGramString query staticValues word with
    | none => none
    | some input =>
      match rowMessages query staticValues rest with
      | none => none
      | some msgs => some (⟨input, freq, numTokens input⟩ :: msgs)

/-- The zero-fill loop of `process`: for every varying candidate not
among the received row words, one synthetic zero-frequency message. -/
def zeroFillMessages (query : Str) (staticValues : List Str)
    (wordsReceived : List Str) : List Str → Option (List QueryResult)
  | [] => some []
  | w :: ws =>
    if wordsReceived.contains w then
      zeroFillMessages query staticValues wordsReceived ws
    else
      match getNGramString query staticValues w with
      | none => none
      | some input =>
        match zeroFillMessages query staticValues wordsReceived ws with
        | none => none
        | some msgs => some (⟨input, 0, numTokens input⟩ :: msgs)

/-- The solver task `process` (src/n_grams/solver/model.rs), given the
rows its successfully executed statement streams: the per-row messages
followed by the zero-fill messages (after the row loop,
`words_received` is exactly the list of row words). -/
def processTask (query : Str) (staticValues varyingValues : List Str)
    (rows : List Row) : Option (List QueryResult) :=
  match rowMessages query staticValues rows with
  | none => none
  | some rowMsgs =>
    match zeroFillMessages query staticValues (rows.map Prod.fst)
        varyingValues with
    | none => none
    | some zeroMsgs => some (rowMsgs ++ zeroMsgs)

/-! ### `src/n_grams/solver/predictor.rs` -/

/-- Replace the value stored under key `k` (the effect of mutating the
entry `HashMap::get_mut` returns; keys of the modelled maps are unique
by construction). -/
def replaceAssoc {β : Type} : List (Str × β) → Str → β → List (Str × β)
  | [], _, _ => []
  | kv :: rest, k, v =>
    if kv.1 == k then (kv.1, v) :: replaceAssoc rest k v
    else kv :: replaceAssoc rest k v

/-- `HashMap::insert`: overwrite the existing entry or append a new one. -/
def insertAssoc {β : Type} (m : List (Str × β)) (k : Str) (v : β) :
    List (Str × β) :=
  if (lookupAssoc m k).isSome then replaceAssoc m k v else m ++ [(k, v)]

/-- Lookup in an `i32`-keyed map (`n_gram_counts`-style tables). -/
def lookupCount (m : List (Int × Int)) (k : Int) : Option Int :=
  (m.find? (fun p => p.1 == k)).map (fun p => p.2)

/-- The inner accumulate-or-insert pass of `fill_results` on one bucket:
add `freq` to every entry whose key case-folds to `input` (the `found`
flag records whether any did); when none did, append `(input, freq)`. -/
def bumpBucket (input : Str) (freq : Int) (h : List (Str × Int)) :
    List (Str × Int) :=
  let found := h.any (fun kv => toLowerStr kv.1 == toLowerStr input)
  if found then
    h.map (fun kv =>
      if toLowerStr kv.1 == toLowerStr input then (kv.1, kv.2 + freq) else kv)
  else h ++ [(input, freq)]

/-- `fill_results` (src/n_grams/solver/predictor.rs): bucket `qr` under
every confusion-group member `w` with `qr.input.contains(w)` — a
**case-sensitive** substring test; within a bucket the accumulation of
equal inputs is case-insensitive (`bumpBucket`). -/
def fillResults (d : List (Str × List (Str × Int))) (qr : QueryResult)
    (cs : List Str) : List (Str × List (Str × Int)) :=
  cs.foldl (fun d w =>
    if containsSub qr.input w then
      match lookupAssoc d w with
      | some h => replaceAssoc d w (bumpBucket qr.input qr.frequency h)
      | none => d ++ [(w, [(qr.input, qr.frequency)])]
    else d) d

/-- `LaplaceSmoothingResult`. -/
structure LaplaceSmoothingResult where
  results : List (Str × Int)
  nGramCounts : List (Int × Int)
deriving DecidableEq, Repr

/-- The totals loop of `LaplaceSmoothingResult::get`: add the
distinct-count entry to every total; the `unwrap` on a missing
distinct-count key is modelled as `none`. -/
def addDistinct (distinct : List (Int × Int)) :
    List (Int × Int) → Option (List (Int × Int))
  | [] => some []
  | (k, v) :: rest =>
    match lookupCount distinct k with
    | none => none
    | some dv =>
      match addDistinct distinct rest with
      | none => none
      | some rest' => some ((k, v + dv) :: rest')

/-- `LaplaceSmoothingResult::get`: every observed count incremented by
one; every total `N[n]` replaced by `N[n] + Dct[n]`. -/
def laplaceGet (results : List (Str × Int))
    (nGramCounts distinct : List (Int × Int)) :
    Option LaplaceSmoothingResult :=
  match addDistinct distinct nGramCounts with
  | none => none
  | some newCounts => some ⟨results.map (fun kv => (kv.1, kv.2 + 1)), newCounts⟩

/-- The scalar loop of `MaxPredictor::predict`: starting from `-1.0`,
maximize `p = (uf / N'[1]) * (c / N'[len])` over the smoothed entries.
The two count lookups model the source's `unwrap`s; the divisions are
over `ℚ` (`x / 0 = 0` stands in for the non-finite `f64` values — no
error path exists either way). -/
def maxScalarLoop (uf : Int) (counts : List (Int × Int)) :
    List (Str × Int) → ℚ → Option ℚ
  | [], acc => some acc
  | (k1, v1) :: rest, acc =>
    match lookupCount counts 1, lookupCount counts (numTokens k1) with
    | some n1, some nl =>
      let p : ℚ := ((uf : ℚ) / (n1 : ℚ)) * ((v1 : ℚ) / (nl : ℚ))
      maxScalarLoop uf counts rest (if acc < p then p else acc)
    | _, _ => none

/-- `PredictionResult` (scores over `ℚ`, see the module comment). -/
structure PredictionResult where
  context : Str
  wordExamined : Str
  results : List (Str × ℚ)
deriving DecidableEq, Repr

/-- The row-partitioning loop of `MaxPredictor::predict`: rows of length
1 feed the unigram table (later rows overwrite earlier ones, as
`HashMap::insert` does); all other rows go through `fill_results`. -/
def partitionRows (cs : List Str) (rows : List QueryResult) :
    List (Str × List (Str × Int)) × List (Str × Int) :=
  rows.foldl (fun acc qr =>
    if qr.length = 1 then (acc.1, insertAssoc acc.2 qr.input qr.frequency)
    else (fillResults acc.1 qr cs, acc.2)) ([], [])

/-- The per-bucket scoring loop of `MaxPredictor::predict`: smooth the
bucket, look up the candidate's unigram frequency (`unwrap` → `none`),
compute the max scalar, and record `scoreFn scalar` where `scoreFn`
abstracts `round(-log10(.) * 10^4) / 10^4`. -/
def scoreBuckets (scoreFn : ℚ → ℚ) (N D : List (Int × Int))
    (unigrams : List (Str × Int)) :
    List (Str × List (Str × Int)) → Option (List (Str × ℚ))
  | [] => some []
  | (k, v) :: rest =>
    match laplaceGet v N D with
    | none => none
    | some laplace =>
      match lookupAssoc unigrams k with
      | none => none
      | some uf =>
        match maxScalarLoop uf laplace.nGramCounts laplace.results (-1) with
        | none => none
        | some scalar =>
          match scoreBuckets scoreFn N D unigrams rest with
          | none => none
          | some out => some ((k, scoreFn scalar) :: out)

/-- `MaxPredictor::predict` (src/n_grams/solver/predictor.rs), timing
dropped.  For each sentence result, the first confusion group containing
the examined word is used (the source's `break`); a sentence result
whose word is in no group contributes nothing.  The function is total on
its success path: no zero-denominator check exists anywhere; `none`
arises only from the source's `unwrap` panics on missing map keys. -/
def maxPredict (scoreFn : ℚ → ℚ) (confusionSet : List (List Str))
    (N D : List (Int × Int)) :
    List SentenceResult → Option (List PredictionResult)
  | [] => some []
  | r :: rest =>
    match confusionSet.find? (fun cs => cs.contains r.word) with
    | none => maxPredict scoreFn confusionSet N D rest
    | some cs =>
      let parts := partitionRows cs r.results
      match scoreBuckets scoreFn N D parts.2 parts.1 with
      | none => none
      | some results =>
        match maxPredict scoreFn confusionSet N D rest with
        | none => none
        | some prs => some (⟨r.sentence, r.word, results⟩ :: prs)

/-! ## Helper lemmas -/

lemma rowMessages_mem {query : Str} {staticValues : List Str} {rows : List Row}
    {msgs : List QueryResult} {w : Str} {f : Int}
    (h : rowMessages query staticValues rows = some msgs) (hw : (w, f) ∈ rows) :
    ∃ inp, getNGramString query staticValues w = some inp ∧
      (⟨inp, f, numTokens inp⟩ : QueryResult) ∈ msgs := by
  induction rows generalizing msgs with
  | nil => cases hw
  | cons r rest ih =>
    obtain ⟨a, b⟩ := r
    rw [rowMessages] at h
    cases hg : getNGramString query staticValues a with
    | none => rw [hg] at h; cases h
    | some inp =>
      rw [hg] at h
      cases hr : rowMessages query staticValues rest with
      | none => rw [hr] at h; cases h
      | some msgs' =>
        rw [hr] at h
        injection h with h
        subst h
        rcases List.mem_cons.mp hw with heq | hmem
        · rw [Prod.mk.injEq] at heq
          obtain ⟨h1, h2⟩ := heq
          subst h1; subst h2
          exact ⟨inp, hg, List.mem_cons_self _ _⟩
        · obtain ⟨inp', hg', hm⟩ := ih hr hmem
          exact ⟨inp', hg', List.mem_cons_of_mem _ hm⟩

lemma zeroFillMessages_mem {query : Str} {staticValues : List Str}
    {wordsReceived : List Str} {ws : List Str} {msgs : List QueryResult} {w : Str}
    (h : zeroFillMessages query staticValues wordsReceived ws = some msgs)
    (hw : w ∈ ws) (hnr : wordsReceived.contains w = false) :
    ∃ inp, getNGramString query staticValues w = some inp ∧
      (⟨inp, 0, numTokens inp⟩ : QueryResult) ∈ msgs := by
  induction ws generalizing msgs with
  | nil => cases hw
  | cons x ws' ih =>
    rw [zeroFillMessages] at h
    rcases List.mem_cons.mp hw with heq | hmem
    · subst heq
      rw [hnr] at h
      simp only [Bool.false_eq_true, if_false] at h
      cases hg : getNGramString query staticValues w with
      | none => rw [hg] at h; cases h
      | some inp =>
        rw [hg] at h
        cases hz : zeroFillMessages query staticValues wordsReceived ws' with
        | none => rw [hz] at h; cases h
        | some msgs' =>
          rw [hz] at h
          injection h with h
          subst h
          exact ⟨inp, rfl, List.mem_cons_self _ _⟩
    · by_cases hc : wordsReceived.contains x
      · rw [if_pos hc] at h
        exact ih h hmem
      · rw [if_neg hc] at h
        cases hg : getNGramString query staticValues x with
        | none => rw [hg] at h; cases h
        | some inp =>
          rw [hg] at h
          cases hz : zeroFillMessages query staticValues wordsReceived ws' with
          | none => rw [hz] at h; cases h
          | some msgs' =>
            rw [hz] at h
            injection h with h
            subst h
            obtain ⟨inp', hg', hm⟩ := ih hz hmem
            exact ⟨inp', hg', List.mem_cons_of_mem _ hm⟩

/-! ## Claims -/

/-- **C1.**  For every n-gram input and valid varying index, when the
store's row stream for the varied-position query yields no rows,
`WordFreqPair::from` returns an empty list rather than an error; only
execution failures (a failed prepare or a failed execute) produce an
error. -/
theorem c1_empty_stream_ok {α : Type} (Q : QueryableModel α) (input : α)
    (index : Int) (q : Str) (ps : List Str)
    (hq : Q.getQuery input (some index) = .ok q)
    (hi : Q.getInput input index = .ok ps) :
    WordFreqPair.fromStore Q true (.ok []) index input = .ok [] ∧
    ∀ (prepareOk : Bool) (driver : Except Unit (List Row)) (err : Str),
      WordFreqPair.fromStore Q prepareOk driver index input = .error err →
      prepareOk = false ∨ driver = .error () := by
  constructor
  · simp [WordFreqPair.fromStore, hq, hi, queryFactoryBuild, executeOne,
      sortedPairsOfRows, List.insertionSort]
  · intro prepareOk driver err h
    cases prepareOk with
    | false => exact Or.inl rfl
    | true =>
      cases driver with
      | error e => exact Or.inr (by cases e; rfl)
      | ok rows =>
        rw [WordFreqPair.fromStore, hq] at h
        simp only [queryFactoryBuild, if_pos] at h
        rw [hi] at h
        simp only [executeOne] at h
        cases h

/-- Witness for C1 at a concrete three-gram and index 1 with an empty
row stream. -/
theorem c1_witness :
    threeGramQueryable.getQuery ⟨"a".toList, "b".toList, "c".toList⟩ (some 1) =
      .ok GET_BY_SECOND_AND_THIRD_3 ∧
    WordFreqPair.fromStore threeGramQueryable true (.ok []) 1
      ⟨"a".toList, "b".toList, "c".toList⟩ = .ok [] :=
  ⟨rfl, (c1_empty_stream_ok threeGramQueryable ⟨"a".toList, "b".toList, "c".toList⟩
      1 GET_BY_SECOND_AND_THIRD_3 ["b".toList, "c".toList] rfl rfl).1⟩

/-- **C2.**  For every probe executed by the batch executor and every
candidate word in the probe's `varying_params`, the emitted messages
contain a result for that candidate: either a store-returned row with
its frequency, or (when no row carried the candidate) a synthetic row
with frequency 0 — never neither. -/
theorem c2_zero_fill_complete (query : Str) (staticValues varyingValues : List Str)
    (rows : List Row) (msgs : List QueryResult)
    (h : processTask query staticValues varyingValues rows = some msgs) :
    ∀ w ∈ varyingValues, ∃ qr ∈ msgs,
      getNGramString query staticValues w = some qr.input ∧
      ((w, qr.frequency) ∈ rows ∨
        (qr.frequency = 0 ∧ w ∉ rows.map Prod.fst)) := by
  intro w hw
  rw [processTask] at h
  cases hr : rowMessages query staticValues rows with
  | none => rw [hr] at h; cases h
  | some rowMsgs =>
    rw [hr] at h
    cases hz : zeroFillMessages query staticValues (rows.map Prod.fst)
        varyingValues with
    | none => rw [hz] at h; cases h
    | some zeroMsgs =>
      rw [hz] at h
      injection h with h
      subst h
      by_cases hmem : w ∈ rows.map Prod.fst
      · obtain ⟨⟨w', f⟩, hrow, heq⟩ := List.mem_map.mp hmem
        simp only at heq
        subst heq
        obtain ⟨inp, hg, hm⟩ := rowMessages_mem hr hrow
        refine ⟨⟨inp, f, numTokens inp⟩, List.mem_append_left _ hm, ?_,
          Or.inl hrow⟩
        exact hg
      · have hnr : (rows.map Prod.fst).contains w = false := by
          simpa using hmem
        obtain ⟨inp, hg, hm⟩ := zeroFillMessages_mem hz hw hnr
        exact ⟨⟨inp, 0, numTokens inp⟩, List.mem_append_right _ hm, hg,
          Or.inr ⟨rfl, hmem⟩⟩

/-- Witness for C2: a 2-gram probe over candidates
`{"their", "there"}` whose stream returns a row only for `"their"` —
the emitted set still carries one row per candidate. -/
theorem c2_witness :
    (∃ qr ∈ [(⟨"saw their".toList, 40, 2⟩ : QueryResult),
        ⟨"saw there".toList, 0, 2⟩],
      getNGramString (GET_ALL_VARYING_2_2 ++ "(?, ?)".toList)
        ["saw".toList] "their".toList = some qr.input ∧
      (("their".toList, qr.frequency) ∈ [("their".toList, (40 : Int))] ∨
        (qr.frequency = 0 ∧
          "their".toList ∉ [("their".toList, (40 : Int))].map Prod.fst))) ∧
    (∃ qr ∈ [(⟨"saw their".toList, 40, 2⟩ : QueryResult),
        ⟨"saw there".toList, 0, 2⟩],
      getNGramString (GET_ALL_VARYING_2_2 ++ "(?, ?)".toList)
        ["saw".toList] "there".toList = some qr.input ∧
      (("there".toList, qr.frequency) ∈ [("their".toList, (40 : Int))] ∨
        (qr.frequency = 0 ∧
          "there".toList ∉ [("their".toList, (40 : Int))].map Prod.fst))) :=
  ⟨c2_zero_fill_complete (GET_ALL_VARYING_2_2 ++ "(?, ?)".toList)
      ["saw".toList] ["their".toList, "there".toList]
      [("their".toList, (40 : Int))]
      [⟨"saw their".toList, 40, 2⟩, ⟨"saw there".toList, 0, 2⟩] (by decide)
      "their".toList (by decide),
    c2_zero_fill_complete (GET_ALL_VARYING_2_2 ++ "(?, ?)".toList)
      ["saw".toList] ["their".toList, "there".toList]
      [("their".toList, (40 : Int))]
      [⟨"saw their".toList, 40, 2⟩, ⟨"saw there".toList, 0, 2⟩] (by decide)
      "there".toList (by decide)⟩

lemma filter_orderedInsert_pos (a : WordFreqPair) (l : List WordFreqPair)
    (f : Int) (ha : a.frequency = f) :
    (List.orderedInsert freqGe a l).filter (fun p => p.frequency == f) =
      a :: l.filter (fun p => p.frequency == f) := by
  induction l with
  | nil => simp [List.orderedInsert, List.filter, ha]
  | cons b l ih =>
    by_cases hr : freqGe a b
    · simp [List.orderedInsert, hr, List.filter_cons, ha]
    · have hbf : (b.frequency == f) = false := by
        simp only [beq_eq_false_iff_ne, ne_eq]
        intro hbf
        exact hr (le_of_eq (by rw [hbf, ha]))
      simp only [List.orderedInsert, if_neg hr, List.filter_cons, hbf,
        Bool.false_eq_true, if_false, ih]

lemma filter_orderedInsert_neg (a : WordFreqPair) (l : List WordFreqPair)
    (f : Int) (ha : a.frequency ≠ f) :
    (List.orderedInsert freqGe a l).filter (fun p => p.frequency == f) =
      l.filter (fun p => p.frequency == f) := by
  have haf : (a.frequency == f) = false := by simp [ha]
  induction l with
  | nil => simp [List.orderedInsert, List.filter, haf]
  | cons b l ih =>
    by_cases hr : freqGe a b
    · simp [List.orderedInsert, hr, List.filter_cons, haf]
    · simp only [List.orderedInsert, if_neg hr, List.filter_cons, ih]

lemma filter_insertionSort (l : List WordFreqPair) (f : Int) :
    (List.insertionSort freqGe l).filter (fun p => p.frequency == f) =
      l.filter (fun p => p.frequency == f) := by
  induction l with
  | nil => rfl
  | cons a l ih =>
    rw [List.insertionSort]
    by_cases ha : a.frequency = f
    · rw [filter_orderedInsert_pos a _ f ha, ih, List.filter_cons]
      simp [ha]
    · rw [filter_orderedInsert_neg a _ f ha, ih, List.filter_cons]
      simp [ha]

lemma find?_take_eq_some {α : Type} {p : α → Bool} {l : List α} {n : Nat}
    {a : α} (h : (l.take n).find? p = some a) : l.find? p = some a := by
  induction l generalizing n with
  | nil => simp at h
  | cons x xs ih =>
    cases n with
    | zero => simp at h
    | succ n =>
      rw [List.take_succ_cons] at h
      by_cases hp : p x
      · rw [List.find?_cons_of_pos _ hp] at h ⊢
        exact h
      · rw [List.find?_cons_of_neg _ hp] at h ⊢
        exact ih h

lemma drainVary_ok_pos (amount : Int) (msgs : List (Except Str VaryingNGram))
    (i : Nat) (f0 : Int) (acc : List VaryingNGram) (ffinal : Int)
    (out : List VaryingNGram) (hi : i ≠ 0)
    (h : drainVary amount msgs i f0 acc = .ok (ffinal, out)) :
    out = acc ++ (msgs.filterMap Except.toOption).map (truncateSlot amount) ∧
    ffinal = f0 ∧ ∀ m ∈ msgs, ∃ v, m = Except.ok v := by
  induction msgs generalizing acc with
  | nil =>
    rw [drainVary] at h
    injection h with h
    rw [Prod.mk.injEq] at h
    obtain ⟨hf, hv⟩ := h
    subst hf
    subst hv
    refine ⟨by simp, rfl, ?_⟩
    intro m hm
    cases hm
  | cons m rest ih =>
    cases m with
    | error e => rw [drainVary] at h; cases h
    | ok v =>
      rw [drainVary] at h
      rw [if_neg hi, if_neg hi] at h
      obtain ⟨h1, h2, h3⟩ := ih _ h
      refine ⟨?_, h2, ?_⟩
      · rw [h1]
        simp [Except.toOption]
      · intro m hm
        rcases List.mem_cons.mp hm with heq | hm'
        · exact ⟨v, heq⟩
        · exact h3 _ hm'

lemma drainVary_ok_zero (amount : Int) (msgs : List (Except Str VaryingNGram))
    (ffinal : Int) (out : List VaryingNGram)
    (h : drainVary amount msgs 0 0 [] = .ok (ffinal, out)) :
    out = (msgs.filterMap Except.toOption).map (truncateSlot amount) ∧
    ffinal = providedOfMsgs msgs ∧
    ∀ m ∈ msgs, ∃ v, m = Except.ok v := by
  cases msgs with
  | nil =>
    rw [drainVary] at h
    injection h with h
    rw [Prod.mk.injEq] at h
    obtain ⟨hf, hv⟩ := h
    subst hf
    subst hv
    exact ⟨rfl, rfl, by intro m hm; cases hm⟩
  | cons m rest =>
    cases m with
    | error e => rw [drainVary] at h; cases h
    | ok v =>
      rw [drainVary] at h
      rw [if_pos rfl, if_pos rfl] at h
      obtain ⟨h1, h2, h3⟩ := drainVary_ok_pos amount rest 1 _ _ ffinal out
        (by decide) h
      refine ⟨?_, ?_, ?_⟩
      · rw [h1]
        simp [Except.toOption]
      · rw [h2, providedOfMsgs, VaryingNGram.findFreq]
        cases hf : WordFreqPair.find v.solutions v.word with
        | none => rfl
        | some pair => rfl
      · intro m hm
        rcases List.mem_cons.mp hm with heq | hm'
        · exact ⟨v, heq⟩
        · exact h3 _ hm'

lemma getVarying_ok_elim {α : Type} {print : α → Str} {input : α}
    {idxs : List Int} {amount : Int}
    {received : List (Except Str VaryingNGram)} {res : VaryingQueryResult}
    (h : getVarying print input idxs amount received = .ok res) :
    res.vary = (received.filterMap Except.toOption).map (truncateSlot amount) ∧
    res.providedNGramFrequency = providedOfMsgs received ∧
    res.varyingIndexes = idxs ∧
    ∀ m ∈ received, ∃ v, m = Except.ok v := by
  rw [getVarying] at h
  cases hd : drainVary amount received 0 0 [] with
  | error e => rw [hd] at h; cases h
  | ok p =>
    obtain ⟨freq, vary⟩ := p
    rw [hd] at h
    injection h with h
    subst h
    obtain ⟨h1, h2, h3⟩ := drainVary_ok_zero amount received freq vary hd
    exact ⟨h1, h2, rfl, h3⟩

lemma processVary_ok {α : Type} {Q : QueryableModel α}
    {store : Int → Bool × Except Unit (List Row)} {input : α} {idx : Int}
    {v : VaryingNGram} (h : processVary Q store input idx = .ok v) :
    v.index = idx ∧ Q.getWord input idx = .ok v.word := by
  rw [processVary] at h
  cases hf : WordFreqPair.fromStore Q (store idx).1 (store idx).2 idx input with
  | error e => rw [hf] at h; cases h
  | ok sols =>
    rw [hf] at h
    cases hw : Q.getWord input idx with
    | error e => rw [hw] at h; cases h
    | ok word =>
      rw [hw] at h
      injection h with h
      subst h
      exact ⟨rfl, rfl⟩

lemma pushResult_sentences (ctx : Str) (qr : QueryResult)
    (l : List SentenceResult) :
    (pushResult ctx qr l).map SentenceResult.sentence =
      l.map SentenceResult.sentence := by
  induction l with
  | nil => rfl
  | cons sr rest ih =>
    rw [pushResult]
    by_cases hs : sr.sentence == ctx
    · simp [hs]
    · simp [hs, ih]

lemma drainExec_sentences (arrival : List (Str × QueryResult))
    (acc : List SentenceResult) :
    (arrival.foldl (fun acc m => pushResult m.1 m.2 acc) acc).map
        SentenceResult.sentence = acc.map SentenceResult.sentence := by
  induction arrival generalizing acc with
  | nil => rfl
  | cons m rest ih => rw [List.foldl_cons, ih, pushResult_sentences]

lemma truncateSlot_index (amount : Int) (v : VaryingNGram) :
    (truncateSlot amount v).index = v.index := by
  rw [truncateSlot]; split <;> rfl

lemma truncateSlot_word (amount : Int) (v : VaryingNGram) :
    (truncateSlot amount v).word = v.word := by
  rw [truncateSlot]; split <;> rfl

lemma truncateSlot_find {amount : Int} {v : VaryingNGram} {w : Str}
    {p : WordFreqPair}
    (h : WordFreqPair.find (truncateSlot amount v).solutions w = some p) :
    WordFreqPair.find v.solutions w = some p := by
  rw [truncateSlot] at h
  split at h
  · exact find?_take_eq_some h
  · exact h

lemma mem_received_of_filterMap {received : List (Except Str VaryingNGram)}
    {v : VaryingNGram} (h : v ∈ received.filterMap Except.toOption) :
    Except.ok v ∈ received := by
  obtain ⟨m, hm, hmo⟩ := List.mem_filterMap.mp h
  cases m with
  | ok w =>
    simp only [Except.toOption] at hmo
    injection hmo with hmo
    subst hmo
    exact hm
  | error e => simp [Except.toOption] at hmo

/-- **C5 (amended).**  For every fetch of a varying slot, the returned
solutions are sorted by frequency non-increasing, and the sort is stable:
the entries of any fixed frequency keep the row stream's order (no
lexicographic tie-break is applied — see the counterexample).  Prefix
truncation preserves the order, so it also holds in every
`vary[k].solutions` of a response. -/
theorem c5_sorted_desc_stable (rows : List Row) :
    List.Sorted freqGe (sortedPairsOfRows rows) ∧
    (sortedPairsOfRows rows).Perm (rows.map fun r => WordFreqPair.new r.1 r.2) ∧
    (∀ f : Int, (sortedPairsOfRows rows).filter (fun p => p.frequency == f) =
      (rows.map fun r => WordFreqPair.new r.1 r.2).filter
        (fun p => p.frequency == f)) ∧
    (∀ n : Nat, List.Sorted freqGe ((sortedPairsOfRows rows).take n)) := by
  refine ⟨List.sorted_insertionSort freqGe _, List.perm_insertionSort freqGe _,
    fun f => filter_insertionSort _ f, fun n => ?_⟩
  exact List.Pairwise.sublist (List.take_sublist _ _)
    (List.sorted_insertionSort freqGe _)

/-- Counterexample for C5 as stated: a fetch whose stream yields two
equal-frequency rows in non-lexicographic word order returns them in
stream order — the comparator `|a, b| b.frequency.cmp(&a.frequency)`
never consults the words, so the claimed lexicographic ascending
tie-break does not hold. -/
theorem c5_counterexample :
    WordFreqPair.fromStore threeGramQueryable true
        (.ok [("b".toList, 5), ("a".toList, 5)]) 1
        ⟨"x".toList, "y".toList, "z".toList⟩ =
      .ok [⟨"b".toList, 5⟩, ⟨"a".toList, 5⟩] ∧
    ¬ sortedFreqDescLexAsc [⟨"b".toList, 5⟩, ⟨"a".toList, 5⟩] := by
  exact ⟨by decide, by decide⟩

/-- **C6.**  For every `get_varying` call: when `amount ≥ 0` every
slot's solutions list in the result has length at most `amount`; when
`amount` is negative no slot is truncated; and the recorded
`provided_n_gram_frequency` does not depend on `amount` (truncation
happens only after it is recorded). -/
theorem c6_truncation {α : Type} (print : α → Str) (input : α)
    (idxs : List Int) (amount : Int)
    (received : List (Except Str VaryingNGram)) (res : VaryingQueryResult)
    (h : getVarying print input idxs amount received = .ok res) :
    (0 ≤ amount → ∀ v ∈ res.vary, (v.solutions.length : Int) ≤ amount) ∧
    (amount < 0 → res.vary = received.filterMap Except.toOption) ∧
    (∀ (amount' : Int) (res' : VaryingQueryResult),
      getVarying print input idxs amount' received = .ok res' →
      res'.providedNGramFrequency = res.providedNGramFrequency) := by
  obtain ⟨h1, h2, _, _⟩ := getVarying_ok_elim h
  refine ⟨?_, ?_, ?_⟩
  · intro hge v hv
    rw [h1] at hv
    obtain ⟨v', _, rfl⟩ := List.mem_map.mp hv
    rw [truncateSlot, if_pos hge]
    simp only
    calc ((v'.solutions.take amount.toNat).length : Int)
        ≤ (amount.toNat : Int) := by exact_mod_cast List.length_take_le _ _
      _ = amount := Int.toNat_of_nonneg hge
  · intro hlt
    rw [h1]
    have hid : truncateSlot amount = id :=
      funext fun v => by rw [truncateSlot, if_neg (by omega)]; rfl
    rw [hid, List.map_id]
  · intro amount' res' h'
    obtain ⟨_, h2', _, _⟩ := getVarying_ok_elim h'
    rw [h2, h2']

/-- Witness for C6: a single slot with three solutions, `amount = 2` —
the slot kept in the result has its solutions truncated to length 2. -/
theorem c6_witness :
    (((⟨3, "been".toList,
        [⟨"been".toList, 100⟩, ⟨"seen".toList, 70⟩]⟩ :
          VaryingNGram).solutions.length : Int)) ≤ 2 :=
  (c6_truncation ThreeGramInput.print
    (⟨"I".toList, "have".toList, "been".toList⟩ : ThreeGramInput) [3] 2
    [Except.ok ⟨3, "been".toList,
      [⟨"been".toList, 100⟩, ⟨"seen".toList, 70⟩, ⟨"gone".toList, 30⟩]⟩]
    ⟨3, "I have been".toList, 100, [3],
      [⟨3, "been".toList, [⟨"been".toList, 100⟩, ⟨"seen".toList, 70⟩]⟩]⟩
    (by decide)).1 (by decide)
    ⟨3, "been".toList, [⟨"been".toList, 100⟩, ⟨"seen".toList, 70⟩]⟩
    (by decide)

/-- **C3.**  For every `get_varying` call, `provided_n_gram_frequency`
is determined from the first completed slot only (`providedOfMsgs`: look
the slot's own word up in its solutions, record its frequency if
present, 0 otherwise); each slot's word is the input's own word at the
slot's index; and — under the store-consistency hypothesis the spec's
rationale states (each slot's lookup of its own word yields the same
result `fopt`) — in every response, the frequency of the slot's own word
in `vary[k].solutions` equals `provided_n_gram_frequency` for every `k`
where that word appears. -/
theorem c3_provided_frequency {α : Type} (Q : QueryableModel α)
    (print : α → Str) (store : Int → Bool × Except Unit (List Row))
    (input : α) (idxs : List Int) (amount : Int)
    (received : List (Except Str VaryingNGram))
    (hperm : received.Perm (idxs.map (processVary Q store input)))
    (fopt : Option Int)
    (hcons : ∀ v : VaryingNGram, Except.ok v ∈ received →
      (WordFreqPair.find v.solutions v.word).map WordFreqPair.frequency = fopt)
    (res : VaryingQueryResult)
    (h : getVarying print input idxs amount received = .ok res) :
    res.providedNGramFrequency = providedOfMsgs received ∧
    (∀ v ∈ res.vary, Q.getWord input v.index = .ok v.word) ∧
    (∀ v ∈ res.vary, ∀ p, WordFreqPair.find v.solutions v.word = some p →
      p.frequency = res.providedNGramFrequency) := by
  obtain ⟨h1, h2, _, hallok⟩ := getVarying_ok_elim h
  refine ⟨h2, ?_, ?_⟩
  · intro v hv
    rw [h1] at hv
    obtain ⟨v', hv', rfl⟩ := List.mem_map.mp hv
    have hok : Except.ok v' ∈ received := mem_received_of_filterMap hv'
    have hmap : Except.ok v' ∈ idxs.map (processVary Q store input) :=
      hperm.mem_iff.mp hok
    obtain ⟨idx, _, hpe⟩ := List.mem_map.mp hmap
    obtain ⟨hidx, hword⟩ := processVary_ok hpe
    rw [truncateSlot_index, truncateSlot_word, hidx]
    exact hword
  · intro v hv p hp
    rw [h1] at hv
    obtain ⟨v', hv', rfl⟩ := List.mem_map.mp hv
    have hok : Except.ok v' ∈ received := mem_received_of_filterMap hv'
    rw [truncateSlot_word] at hp
    have hfind : WordFreqPair.find v'.solutions v'.word = some p :=
      truncateSlot_find hp
    have hc := hcons v' hok
    rw [hfind] at hc
    rw [h2]
    cases received with
    | nil => cases hok
    | cons m rest =>
      obtain ⟨v0, hm0⟩ := hallok m (List.mem_cons_self _ _)
      subst hm0
      have hc0 := hcons v0 (List.mem_cons_self _ _)
      rw [providedOfMsgs, hc0, ← hc]
      rfl

/-- Witness for C3: one varying slot (index 3) over the concrete corpus
of the spec's first scenario. -/
theorem c3_witness :
    ((⟨3, "I have been".toList, 100, [3],
        [⟨3, "been".toList, [⟨"been".toList, 100⟩, ⟨"seen".toList, 70⟩]⟩]⟩ :
          VaryingQueryResult).providedNGramFrequency =
      providedOfMsgs [Except.ok ⟨3, "been".toList,
        [⟨"been".toList, 100⟩, ⟨"seen".toList, 70⟩, ⟨"gone".toList, 30⟩]⟩]) ∧
    (∀ v ∈ (⟨3, "I have been".toList, 100, [3],
        [⟨3, "been".toList, [⟨"been".toList, 100⟩, ⟨"seen".toList, 70⟩]⟩]⟩ :
          VaryingQueryResult).vary,
      threeGramQueryable.getWord
        (⟨"I".toList, "have".toList, "been".toList⟩ : ThreeGramInput) v.index =
        .ok v.word) ∧
    (∀ v ∈ (⟨3, "I have been".toList, 100, [3],
        [⟨3, "been".toList, [⟨"been".toList, 100⟩, ⟨"seen".toList, 70⟩]⟩]⟩ :
          VaryingQueryResult).vary,
      ∀ p, WordFreqPair.find v.solutions v.word = some p →
        p.frequency = (⟨3, "I have been".toList, 100, [3],
          [⟨3, "been".toList, [⟨"been".toList, 100⟩, ⟨"seen".toList, 70⟩]⟩]⟩ :
            VaryingQueryResult).providedNGramFrequency) :=
  c3_provided_frequency threeGramQueryable ThreeGramInput.print
    (fun _ => (true, Except.ok
      [("been".toList, 100), ("seen".toList, 70), ("gone".toList, 30)]))
    (⟨"I".toList, "have".toList, "been".toList⟩ : ThreeGramInput) [3] 2
    [Except.ok ⟨3, "been".toList,
      [⟨"been".toList, 100⟩, ⟨"seen".toList, 70⟩, ⟨"gone".toList, 30⟩]⟩]
    (by decide) (some 100)
    (by
      intro v hv
      rw [List.mem_singleton] at hv
      injection hv with hv
      subst hv
      decide)
    ⟨3, "I have been".toList, 100, [3],
      [⟨3, "been".toList, [⟨"been".toList, 100⟩, ⟨"seen".toList, 70⟩]⟩]⟩
    (by decide)

/-- **C8 (amended).**  Within a single `execute_queries` call the output
order of `sentence_results` equals the order in which contexts were
enqueued, independent of task completion order (the skeletons are pushed
during the enqueue loop and `pushResult` never reorders them); within a
single `get_varying` call, however, the output order of `vary` is the
channel-arrival (task completion) order of the messages, not the input
order of `varying_indexes` (see the counterexample). -/
theorem c8_order_amended :
    (∀ (queries : List (Str × Queries)) (arrival : List (Str × QueryResult)),
      (executeQueries queries arrival).map SentenceResult.sentence =
        queries.map Prod.fst) ∧
    (∀ (α : Type) (print : α → Str) (input : α) (idxs : List Int)
        (amount : Int) (received : List (Except Str VaryingNGram))
        (res : VaryingQueryResult),
      getVarying print input idxs amount received = .ok res →
      res.vary =
        (received.filterMap Except.toOption).map (truncateSlot amount)) := by
  constructor
  · intro queries arrival
    rw [executeQueries, drainExec_sentences]
    simp
  · intro α print input idxs amount received res h
    exact (getVarying_ok_elim h).1

/-- Witness for C8: both parts at concrete inputs — two enqueued
contexts with one late message, and one received slot message. -/
theorem c8_order_witness :
    ((executeQueries
        [("c one".toList, ⟨[], "w".toList⟩), ("c two".toList, ⟨[], "w".toList⟩)]
        [("c two".toList, ⟨"i".toList, 1, 1⟩)]).map SentenceResult.sentence =
      ["c one".toList, "c two".toList]) ∧
    ((⟨3, "a b c".toList, 0, [1],
        [⟨1, "x".toList, []⟩]⟩ : VaryingQueryResult).vary =
      (([Except.ok (⟨1, "x".toList, []⟩ : VaryingNGram)] :
          List (Except Str VaryingNGram)).filterMap
        Except.toOption).map (truncateSlot 5)) :=
  ⟨c8_order_amended.1 _ _,
    c8_order_amended.2 ThreeGramInput ThreeGramInput.print
      (⟨"a".toList, "b".toList, "c".toList⟩ : ThreeGramInput) [1] 5
      [Except.ok ⟨1, "x".toList, []⟩]
      ⟨3, "a b c".toList, 0, [1], [⟨1, "x".toList, []⟩]⟩ (by decide)⟩

/-- Counterexample for C8 as stated: with varying indexes `[1, 2]` and
the channel delivering task 2's message before task 1's — a legitimate
completion order, as the permutation conjunct certifies — the output
`vary` carries the indexes in order `[2, 1]`, not the input order
`[1, 2]` recorded in `varying_indexes`. -/
theorem c8_order_counterexample :
    ([Except.ok (⟨2, "have".toList, [⟨"have".toList, 5⟩]⟩ : VaryingNGram),
        Except.ok (⟨1, "I".toList, [⟨"I".toList, 5⟩]⟩ : VaryingNGram)].Perm
      ([1, 2].map (processVary threeGramQueryable
        (fun i => (true, Except.ok (if i = 1 then [("I".toList, 5)]
          else [("have".toList, 5)])))
        (⟨"I".toList, "have".toList, "x".toList⟩ : ThreeGramInput)))) ∧
    (getVarying ThreeGramInput.print
        (⟨"I".toList, "have".toList, "x".toList⟩ : ThreeGramInput) [1, 2] 50
        [Except.ok ⟨2, "have".toList, [⟨"have".toList, 5⟩]⟩,
          Except.ok ⟨1, "I".toList, [⟨"I".toList, 5⟩]⟩] =
      .ok ⟨3, "I have x".toList, 5, [1, 2],
        [⟨2, "have".toList, [⟨"have".toList, 5⟩]⟩,
          ⟨1, "I".toList, [⟨"I".toList, 5⟩]⟩]⟩) ∧
    ([(⟨2, "have".toList, [⟨"have".toList, 5⟩]⟩ : VaryingNGram),
        ⟨1, "I".toList, [⟨"I".toList, 5⟩]⟩].map VaryingNGram.index ≠ [1, 2]) :=
  ⟨by decide, by decide, by decide⟩

lemma validateLoop_shape {hi : Int} {seen l out : List Int}
    (h : validateLoop hi seen l = .ok out) : out = seen ++ l := by
  induction l generalizing seen with
  | nil =>
    rw [validateLoop] at h
    injection h with h
    subst h
    simp
  | cons x xs ih =>
    rw [validateLoop] at h
    by_cases h1 : x < 1 ∨ x > hi
    · rw [if_pos h1] at h; cases h
    · rw [if_neg h1] at h
      by_cases h2 : seen.contains x
      · rw [if_pos h2] at h; cases h
      · rw [if_neg h2] at h
        rw [ih h]
        simp

lemma validateLoop_error_msg {hi : Int} {seen l : List Int} {e : Str}
    (h : validateLoop hi seen l = .error e) : e = "Invalid index".toList := by
  induction l generalizing seen with
  | nil => rw [validateLoop] at h; cases h
  | cons x xs ih =>
    rw [validateLoop] at h
    by_cases h1 : x < 1 ∨ x > hi
    · rw [if_pos h1] at h
      injection h with h
      exact h.symm
    · rw [if_neg h1] at h
      by_cases h2 : seen.contains x
      · rw [if_pos h2] at h
        injection h with h
        exact h.symm
      · rw [if_neg h2] at h
        exact ih h

lemma validateLoop_isOk_iff (hi : Int) (seen l : List Int) :
    (validateLoop hi seen l).isOk = true ↔
      ((∀ i ∈ l, 1 ≤ i ∧ i ≤ hi) ∧ l.Nodup ∧ ∀ i ∈ l, i ∉ seen) := by
  induction l generalizing seen with
  | nil =>
    rw [validateLoop]
    simp [Except.isOk, Except.toBool]
  | cons x xs ih =>
    rw [validateLoop]
    by_cases h1 : x < 1 ∨ x > hi
    · rw [if_pos h1]
      simp only [Except.isOk]
      constructor
      · intro hc; cases hc
      · rintro ⟨hr, -, -⟩
        obtain ⟨ha, hb⟩ := hr x (List.mem_cons_self _ _)
        omega
    · rw [if_neg h1]
      by_cases h2 : seen.contains x
      · rw [if_pos h2]
        simp only [Except.isOk]
        constructor
        · intro hc; cases hc
        · rintro ⟨-, -, hs⟩
          exact absurd (by simpa using h2) (hs x (List.mem_cons_self _ _))
      · rw [if_neg h2]
        rw [ih (seen ++ [x])]
        constructor
        · rintro ⟨hr, hn, hs⟩
          refine ⟨?_, ?_, ?_⟩
          · intro i hi'
            rcases List.mem_cons.mp hi' with rfl | hm
            · omega
            · exact hr i hm
          · rw [List.nodup_cons]
            refine ⟨?_, hn⟩
            intro hx
            exact absurd (List.mem_append_right seen (by simp)) (hs x hx)
          · intro i hi'
            rcases List.mem_cons.mp hi' with rfl | hm
            · simpa using h2
            · intro hmem
              exact hs i hm (List.mem_append_left _ hmem)
        · rintro ⟨hr, hn, hs⟩
          refine ⟨?_, ?_, ?_⟩
          · intro i hm
            exact hr i (List.mem_cons_of_mem _ hm)
          · exact (List.nodup_cons.mp hn).2
          · intro i hm hmem
            rcases List.mem_append.mp hmem with hseen | hx
            · exact hs i (List.mem_cons_of_mem _ hm) hseen
            · rw [List.mem_singleton] at hx
              subst hx
              exact (List.nodup_cons.mp hn).1 hm

lemma validate3_ok_iff (l : List Int) :
    validate3 l = .ok () ↔ ((∀ i ∈ l, 1 ≤ i ∧ i ≤ 3) ∧ l.Nodup) := by
  rw [validate3]
  cases hv : validateLoop 3 [] l with
  | error e =>
    have hiff := validateLoop_isOk_iff 3 [] l
    rw [hv] at hiff
    simp only [Except.isOk, Except.toBool, Bool.false_eq_true, false_iff]
      at hiff
    constructor
    · intro hc; cases hc
    · intro ⟨hr, hn⟩
      exact absurd ⟨hr, hn, by simp⟩ hiff
  | ok out =>
    have hsh := validateLoop_shape hv
    rw [List.nil_append] at hsh
    subst hsh
    show (if out.length ≠ out.length then
        (Except.error "Invalid index".toList : Except Str Unit)
      else Except.ok ()) = Except.ok () ↔ _
    rw [if_neg (by simp)]
    have hiff := validateLoop_isOk_iff 3 [] out
    rw [hv] at hiff
    simp only [Except.isOk, Except.toBool, true_iff] at hiff
    constructor
    · intro _
      obtain ⟨hr, hn, -⟩ := hiff
      exact ⟨hr, hn⟩
    · intro _; rfl

lemma validate2_ok_iff (l : List Int) :
    validate2 l = .ok () ↔ ((∀ i ∈ l, 1 ≤ i ∧ i ≤ 2) ∧ l.Nodup) := by
  rw [validate2]
  cases hv : validateLoop 2 [] l with
  | error e =>
    have hiff := validateLoop_isOk_iff 2 [] l
    rw [hv] at hiff
    simp only [Except.isOk, Except.toBool, Bool.false_eq_true, false_iff]
      at hiff
    constructor
    · intro hc; cases hc
    · intro ⟨hr, hn⟩
      exact absurd ⟨hr, hn, by simp⟩ hiff
  | ok out =>
    have hsh := validateLoop_shape hv
    rw [List.nil_append] at hsh
    subst hsh
    show (if out.length ≠ out.length then
        (Except.error "Invalid index".toList : Except Str Unit)
      else Except.ok ()) = Except.ok () ↔ _
    rw [if_neg (by simp)]
    have hiff := validateLoop_isOk_iff 2 [] out
    rw [hv] at hiff
    simp only [Except.isOk, Except.toBool, true_iff] at hiff
    constructor
    · intro _
      obtain ⟨hr, hn, -⟩ := hiff
      exact ⟨hr, hn⟩
    · intro _; rfl

lemma validate3_error_msg {l : List Int} {e : Str}
    (h : validate3 l = .error e) : e = "Invalid index".toList := by
  rw [validate3] at h
  cases hv : validateLoop 3 [] l with
  | error e' =>
    rw [hv] at h
    injection h with h
    rw [← h]
    exact validateLoop_error_msg hv
  | ok out =>
    rw [hv] at h
    change (if out.length ≠ l.length then
        (Except.error "Invalid index".toList : Except Str Unit)
      else Except.ok ()) = Except.error e at h
    by_cases hl : out.length ≠ l.length
    · rw [if_pos hl] at h
      injection h with h
      exact h.symm
    · rw [if_neg hl] at h
      cases h

lemma validate2_error_msg {l : List Int} {e : Str}
    (h : validate2 l = .error e) : e = "Invalid index".toList := by
  rw [validate2] at h
  cases hv : validateLoop 2 [] l with
  | error e' =>
    rw [hv] at h
    injection h with h
    rw [← h]
    exact validateLoop_error_msg hv
  | ok out =>
    rw [hv] at h
    change (if out.length ≠ l.length then
        (Except.error "Invalid index".toList : Except Str Unit)
      else Except.ok ()) = Except.error e at h
    by_cases hl : out.length ≠ l.length
    · rw [if_pos hl] at h
      injection h with h
      exact h.symm
    · rw [if_neg hl] at h
      cases h

lemma parseAllI32_isSome_iff (ts : List Str) :
    (parseAllI32 ts).isSome = true ↔ ∀ t ∈ ts, (parseI32 t).isSome = true := by
  induction ts with
  | nil => simp [parseAllI32]
  | cons t ts ih =>
    rw [parseAllI32]
    cases hp : parseI32 t with
    | none =>
      simp only [Option.isSome_none]
      constructor
      · intro hc; cases hc
      · intro hall
        have := hall t (List.mem_cons_self _ _)
        rw [hp] at this
        cases this
    | some i =>
      cases hr : parseAllI32 ts with
      | none =>
        simp only [Option.isSome_none]
        constructor
        · intro hc; cases hc
        · intro hall
          have : (parseAllI32 ts).isSome = true :=
            ih.mpr fun t' ht' => hall t' (List.mem_cons_of_mem _ ht')
          rw [hr] at this
          cases this
      | some l =>
        simp only [Option.isSome_some, true_iff]
        intro t' ht'
        rcases List.mem_cons.mp ht' with rfl | hm
        · rw [hp]; rfl
        · have : (parseAllI32 ts).isSome = true := by rw [hr]; rfl
          exact (ih.mp this) t' hm

/-- **C7.**  For every vary parameter string and every `n ∈ {2, 3}`:
parsing and validation succeed exactly when every comma-separated token
parses as an `i32` and the parsed indexes all lie in `[1..n]` and are
pairwise distinct; every failure — unparsable token, out-of-range index
or duplicate — carries the `"Invalid index"` message; and the empty vary
string is rejected (its single empty token does not parse). -/
theorem c7_vary_parse_validate (vary : Str) :
    (∀ l : List Int, parseVaryingIndexes vary validate3 = .ok l ↔
      (parseAllI32 (splitOnChar ',' vary) = some l ∧
        (∀ i ∈ l, 1 ≤ i ∧ i ≤ 3) ∧ l.Nodup)) ∧
    (∀ l : List Int, parseVaryingIndexes vary validate2 = .ok l ↔
      (parseAllI32 (splitOnChar ',' vary) = some l ∧
        (∀ i ∈ l, 1 ≤ i ∧ i ≤ 2) ∧ l.Nodup)) ∧
    ((parseAllI32 (splitOnChar ',' vary)).isSome = true ↔
      ∀ t ∈ splitOnChar ',' vary, (parseI32 t).isSome = true) ∧
    (∀ e, parseVaryingIndexes vary validate3 = .error e →
      e = "Invalid index".toList) ∧
    (∀ e, parseVaryingIndexes vary validate2 = .error e →
      e = "Invalid index".toList) ∧
    (vary = [] →
      parseVaryingIndexes vary validate3 = .error "Invalid index".toList) := by
  refine ⟨?_, ?_, parseAllI32_isSome_iff _, ?_, ?_, ?_⟩
  · intro l
    rw [parseVaryingIndexes]
    cases hp : parseAllI32 (splitOnChar ',' vary) with
    | none =>
      simp only
      constructor
      · intro hc; cases hc
      · rintro ⟨hc, -⟩; cases hc
    | some xs =>
      simp only
      cases hv : validate3 xs with
      | ok u =>
        cases u
        constructor
        · intro hl
          injection hl with hl
          subst hl
          exact ⟨rfl, (validate3_ok_iff xs).mp hv⟩
        · rintro ⟨hsome, -⟩
          injection hsome with hsome
          subst hsome
          rfl
      | error e =>
        constructor
        · intro hc; cases hc
        · rintro ⟨hsome, hr, hn⟩
          injection hsome with hsome
          subst hsome
          rw [(validate3_ok_iff xs).mpr ⟨hr, hn⟩] at hv
          cases hv
  · intro l
    rw [parseVaryingIndexes]
    cases hp : parseAllI32 (splitOnChar ',' vary) with
    | none =>
      simp only
      constructor
      · intro hc; cases hc
      · rintro ⟨hc, -⟩; cases hc
    | some xs =>
      simp only
      cases hv : validate2 xs with
      | ok u =>
        cases u
        constructor
        · intro hl
          injection hl with hl
          subst hl
          exact ⟨rfl, (validate2_ok_iff xs).mp hv⟩
        · rintro ⟨hsome, -⟩
          injection hsome with hsome
          subst hsome
          rfl
      | error e =>
        constructor
        · intro hc; cases hc
        · rintro ⟨hsome, hr, hn⟩
          injection hsome with hsome
          subst hsome
          rw [(validate2_ok_iff xs).mpr ⟨hr, hn⟩] at hv
          cases hv
  · intro e h
    rw [parseVaryingIndexes] at h
    cases hp : parseAllI32 (splitOnChar ',' vary) with
    | none =>
      rw [hp] at h
      injection h with h
      exact h.symm
    | some xs =>
      rw [hp] at h
      change (match validate3 xs with
        | Except.ok _ => Except.ok xs
        | Except.error err => Except.error err) = Except.error e at h
      cases hv : validate3 xs with
      | ok u => rw [hv] at h; cases h
      | error e' =>
        rw [hv] at h
        injection h with h
        rw [← h]
        exact validate3_error_msg hv
  · intro e h
    rw [parseVaryingIndexes] at h
    cases hp : parseAllI32 (splitOnChar ',' vary) with
    | none =>
      rw [hp] at h
      injection h with h
      exact h.symm
    | some xs =>
      rw [hp] at h
      change (match validate2 xs with
        | Except.ok _ => Except.ok xs
        | Except.error err => Except.error err) = Except.error e at h
      cases hv : validate2 xs with
      | ok u => rw [hv] at h; cases h
      | error e' =>
        rw [hv] at h
        injection h with h
        rw [← h]
        exact validate2_error_msg hv
  · intro hv
    subst hv
    decide

/-- Witness for C7: `"1,2"` parses and validates for `n = 3`; the
duplicate `"1,1"` of the spec's scenario is rejected with
`"Invalid index"`. -/
theorem c7_witness :
    parseVaryingIndexes "1,2".toList validate3 = .ok [1, 2] ∧
    parseVaryingIndexes "1,1".toList validate2 =
      .error "Invalid index".toList :=
  ⟨((c7_vary_parse_validate "1,2".toList).1 [1, 2]).mpr
      ⟨by decide, by decide, by decide⟩,
    by decide⟩

lemma lookupAssoc_replaceAssoc_ne {β : Type} (m : List (Str × β))
    (k k' : Str) (v : β) (hne : k' ≠ k) :
    lookupAssoc (replaceAssoc m k' v) k = lookupAssoc m k := by
  induction m with
  | nil => rfl
  | cons kv rest ih =>
    obtain ⟨k0, v0⟩ := kv
    rw [replaceAssoc]
    by_cases h1 : k0 = k'
    · rw [if_pos (by simpa using h1)]
      have hk : k0 ≠ k := by rw [h1]; exact hne
      rw [lookupAssoc, lookupAssoc]
      rw [if_neg (by simpa using hk), if_neg (by simpa using hk)]
      exact ih
    · rw [if_neg (by simpa using h1)]
      rw [lookupAssoc, lookupAssoc]
      by_cases h0 : k0 = k
      · rw [if_pos (by simpa using h0), if_pos (by simpa using h0)]
      · rw [if_neg (by simpa using h0), if_neg (by simpa using h0)]
        exact ih

lemma lookupAssoc_replaceAssoc_self {β : Type} (m : List (Str × β))
    (k : Str) (v : β) (hsome : (lookupAssoc m k).isSome = true) :
    lookupAssoc (replaceAssoc m k v) k = some v := by
  induction m with
  | nil => cases hsome
  | cons kv rest ih =>
    obtain ⟨k0, v0⟩ := kv
    rw [replaceAssoc]
    by_cases h0 : k0 = k
    · rw [if_pos (by simpa using h0)]
      rw [lookupAssoc, if_pos (by simpa using h0)]
    · rw [if_neg (by simpa using h0)]
      rw [lookupAssoc, if_neg (by simpa using h0)]
      rw [lookupAssoc, if_neg (by simpa using h0)] at hsome
      exact ih hsome

lemma lookupAssoc_append_ne {β : Type} (m : List (Str × β)) (k k' : Str)
    (v : β) (hne : k' ≠ k) :
    lookupAssoc (m ++ [(k', v)]) k = lookupAssoc m k := by
  induction m with
  | nil =>
    rw [List.nil_append]
    rw [show lookupAssoc ([] : List (Str × β)) k = none from rfl]
    rw [lookupAssoc, if_neg (by simpa using hne)]
    rfl
  | cons kv rest ih =>
    rw [List.cons_append, lookupAssoc, lookupAssoc]
    by_cases h0 : kv.1 = k
    · rw [if_pos (by simpa using h0), if_pos (by simpa using h0)]
    · rw [if_neg (by simpa using h0), if_neg (by simpa using h0)]
      exact ih

lemma lookupAssoc_append_self {β : Type} (m : List (Str × β)) (k : Str)
    (v : β) (hnone : lookupAssoc m k = none) :
    lookupAssoc (m ++ [(k, v)]) k = some v := by
  induction m with
  | nil =>
    rw [List.nil_append, lookupAssoc, if_pos (by simp)]
  | cons kv rest ih =>
    rw [List.cons_append, lookupAssoc]
    rw [lookupAssoc] at hnone
    by_cases h0 : kv.1 = k
    · rw [if_pos (by simpa using h0)] at hnone
      cases hnone
    · rw [if_neg (by simpa using h0)] at hnone
      rw [if_neg (by simpa using h0)]
      exact ih hnone

/-- The per-member step of `fill_results`, named for the lemmas. -/
def fillStep (qr : QueryResult) (d : List (Str × List (Str × Int)))
    (w : Str) : List (Str × List (Str × Int)) :=
  if containsSub qr.input w then
    match lookupAssoc d w with
    | some h => replaceAssoc d w (bumpBucket qr.input qr.frequency h)
    | none => d ++ [(w, [(qr.input, qr.frequency)])]
  else d

lemma fillResults_eq_foldl (d : List (Str × List (Str × Int)))
    (qr : QueryResult) (cs : List Str) :
    fillResults d qr cs = cs.foldl (fillStep qr) d := by
  rw [fillResults]
  induction cs generalizing d with
  | nil => rfl
  | cons w ws ih => rw [List.foldl_cons, List.foldl_cons, ih, fillStep]

lemma fillStep_lookup_preserved {qr : QueryResult}
    {d : List (Str × List (Str × Int))} {w w' : Str}
    (hcase : w' ≠ w ∨ containsSub qr.input w' = false) :
    lookupAssoc (fillStep qr d w') w = lookupAssoc d w := by
  rw [fillStep]
  by_cases hg : containsSub qr.input w'
  · rw [if_pos hg]
    have hne : w' ≠ w := by
      rcases hcase with h | h
      · exact h
      · rw [hg] at h; cases h
    cases hl : lookupAssoc d w' with
    | some hh => exact lookupAssoc_replaceAssoc_ne d w w' _ hne
    | none => exact lookupAssoc_append_ne d w w' _ hne
  · rw [if_neg hg]

lemma fillStep_lookup_isSome {qr : QueryResult}
    {d : List (Str × List (Str × Int))} {w w' : Str}
    (hsome : (lookupAssoc d w).isSome = true) :
    (lookupAssoc (fillStep qr d w') w).isSome = true := by
  rw [fillStep]
  by_cases hg : containsSub qr.input w'
  · rw [if_pos hg]
    by_cases hne : w' = w
    · subst hne
      cases hl : lookupAssoc d w' with
      | some hh => rw [lookupAssoc_replaceAssoc_self d w' _ (by rw [hl]; rfl)]; rfl
      | none => rw [hl] at hsome; cases hsome
    · cases hl : lookupAssoc d w' with
      | some hh => rw [lookupAssoc_replaceAssoc_ne d w w' _ hne]; exact hsome
      | none => rw [lookupAssoc_append_ne d w w' _ hne]; exact hsome
  · rw [if_neg hg]; exact hsome

lemma foldl_fillStep_preserved {qr : QueryResult} {w : Str}
    (hgate : containsSub qr.input w = false) :
    ∀ (cs : List Str) (d : List (Str × List (Str × Int))),
      lookupAssoc (cs.foldl (fillStep qr) d) w = lookupAssoc d w := by
  intro cs
  induction cs with
  | nil => intro d; rfl
  | cons w' ws ih =>
    intro d
    rw [List.foldl_cons, ih]
    apply fillStep_lookup_preserved
    by_cases hne : w' = w
    · subst hne; exact Or.inr hgate
    · exact Or.inl hne

lemma foldl_fillStep_isSome {qr : QueryResult} {w : Str} :
    ∀ (cs : List Str) (d : List (Str × List (Str × Int))),
      (lookupAssoc d w).isSome = true →
      (lookupAssoc (cs.foldl (fillStep qr) d) w).isSome = true := by
  intro cs
  induction cs with
  | nil => intro d h; exact h
  | cons w' ws ih =>
    intro d h
    rw [List.foldl_cons]
    exact ih _ (fillStep_lookup_isSome h)

/-- **C9 (amended).**  In `fill_results`, a row is bucketed under a
confusion-group member exactly when the member occurs
**case-sensitively** as a substring of the row's `input`
(`qr.input.contains(w)`), not case-insensitively as the claim states;
within a bucket, accumulation of case-folded-equal inputs is
case-insensitive and merges into a single entry, as claimed. -/
theorem c9_bucketing (qr : QueryResult) (d : List (Str × List (Str × Int)))
    (cs : List Str) (w : Str) (hw : w ∈ cs) :
    (containsSub qr.input w = false →
      lookupAssoc (fillResults d qr cs) w = lookupAssoc d w) ∧
    (containsSub qr.input w = true →
      (lookupAssoc (fillResults d qr cs) w).isSome = true) ∧
    (∀ (qr1 qr2 : QueryResult),
      containsSub qr1.input w = true → containsSub qr2.input w = true →
      toLowerStr qr1.input = toLowerStr qr2.input →
      lookupAssoc (fillResults (fillResults [] qr1 [w]) qr2 [w]) w =
        some [(qr1.input, qr1.frequency + qr2.frequency)]) := by
  refine ⟨?_, ?_, ?_⟩
  · intro hgate
    rw [fillResults_eq_foldl]
    exact foldl_fillStep_preserved hgate cs d
  · intro hgate
    rw [fillResults_eq_foldl]
    obtain ⟨pre, post, rfl⟩ := List.append_of_mem hw
    rw [List.foldl_append, List.foldl_cons]
    apply foldl_fillStep_isSome
    rw [fillStep, if_pos hgate]
    cases hl : lookupAssoc (pre.foldl (fillStep qr) d) w with
    | some hh =>
      rw [lookupAssoc_replaceAssoc_self _ _ _ (by rw [hl]; rfl)]
      rfl
    | none =>
      show (lookupAssoc (List.foldl (fillStep qr) d pre ++
        [(w, [(qr.input, qr.frequency)])]) w).isSome = true
      rw [lookupAssoc_append_self _ _ _ hl]
      rfl
  · intro qr1 qr2 hg1 hg2 hfold
    rw [fillResults_eq_foldl, fillResults_eq_foldl]
    rw [List.foldl_cons, List.foldl_nil, List.foldl_cons, List.foldl_nil]
    have hstep1 : fillStep qr1 ([] : List (Str × List (Str × Int))) w =
        [(w, [(qr1.input, qr1.frequency)])] := by
      rw [fillStep, if_pos hg1]
      rfl
    rw [hstep1, fillStep, if_pos hg2]
    have h1 : lookupAssoc [(w, [(qr1.input, qr1.frequency)])] w =
        some [(qr1.input, qr1.frequency)] := by
      rw [lookupAssoc, if_pos (by simp)]
    rw [h1]
    show lookupAssoc (replaceAssoc [(w, [(qr1.input, qr1.frequency)])] w
      (bumpBucket qr2.input qr2.frequency [(qr1.input, qr1.frequency)])) w = _
    have hb : bumpBucket qr2.input qr2.frequency
        [(qr1.input, qr1.frequency)] =
        [(qr1.input, qr1.frequency + qr2.frequency)] := by
      rw [bumpBucket]
      simp [hfold]
    rw [hb, replaceAssoc, if_pos (by simp)]
    rw [lookupAssoc, if_pos (by simp)]

/-- Counterexample for C9 as stated: the member `"There"` occurs
case-insensitively in the row input `"there dog"` (second conjunct), yet
`fill_results` creates no bucket for it — the gate
`qr.input.contains(w)` is case-sensitive. -/
theorem c9_counterexample :
    fillResults [] ⟨"there dog".toList, 7, 2⟩ ["There".toList] = [] ∧
    containsSub (toLowerStr "there dog".toList)
      (toLowerStr "There".toList) = true :=
  ⟨by decide, by decide⟩

/-- Witness for C9: the member `"there"` occurs verbatim in both
`"x there"` and `"X there"`, whose case-folds agree, so the two rows
merge into the single bucket entry `("x there", 3 + 4)`. -/
theorem c9_witness :
    lookupAssoc (fillResults
        (fillResults [] ⟨"x there".toList, 3, 2⟩ ["there".toList])
        ⟨"X there".toList, 4, 2⟩ ["there".toList]) "there".toList =
      some [("x there".toList, 3 + 4)] :=
  (c9_bucketing ⟨"x there".toList, 3, 2⟩ [] ["there".toList] "there".toList
    (by decide)).2.2 ⟨"x there".toList, 3, 2⟩ ⟨"X there".toList, 4, 2⟩
    (by decide) (by decide) (by decide)

lemma isUpper_toLower_false (c : Char) : (Char.toLower c).isUpper = false := by
  unfold Char.toLower
  by_cases h : c.toNat ≥ 65 ∧ c.toNat ≤ 90
  · rw [if_pos h]
    obtain ⟨h1, h2⟩ := h
    have hsz : c.toNat + 32 < UInt32.size := by
      have he : UInt32.size = 4294967296 := rfl
      omega
    have hvalid : Nat.isValidChar (c.toNat + 32) := by left; omega
    have hval : (Char.ofNat (c.toNat + 32)).val.toNat = c.toNat + 32 := by
      simp only [Char.ofNat, hvalid, dif_pos]
      simp only [Char.ofNatAux, UInt32.ofNat']
      simp [UInt32.toNat, BitVec.toNat_ofNat, Nat.mod_eq_of_lt hsz]
    simp only [Char.isUpper]
    rw [Bool.and_eq_false_iff]
    right
    simp only [decide_eq_false_iff_not]
    intro hle
    have hle' : (Char.ofNat (c.toNat + 32)).val.toNat ≤ 90 :=
      UInt32.toNat_le_of_le (by decide) hle
    omega
  · rw [if_neg h]
    simp only [Char.isUpper]
    rw [Bool.and_eq_false_iff]
    rcases Nat.lt_or_ge c.toNat 65 with hlt | hge
    · left
      simp only [decide_eq_false_iff_not]
      intro hge'
      have h2 : 65 ≤ c.val.toNat := UInt32.le_toNat_of_le (by decide) hge'
      have hcv : c.val.toNat = c.toNat := rfl
      omega
    · right
      simp only [decide_eq_false_iff_not]
      intro hle
      have h2 : c.val.toNat ≤ 90 := UInt32.toNat_le_of_le (by decide) hle
      have hcv : c.val.toNat = c.toNat := rfl
      omega

lemma containsSub_mem {s pat : Str} (h : containsSub s pat = true) {c : Char}
    (hc : c ∈ pat) : c ∈ s := by
  induction s with
  | nil =>
    rw [containsSub] at h
    cases pat with
    | nil => cases hc
    | cons p ps => simp [List.isPrefixOf] at h
  | cons x xs ih =>
    rw [containsSub, Bool.or_eq_true] at h
    rcases h with hpre | hrec
    · have hp : pat <+: x :: xs := List.isPrefixOf_iff_prefix.mp hpre
      exact hp.sublist.subset hc
    · exact List.mem_cons_of_mem _ (ih hrec)

/-- **C10.**  For every confusion-set member containing an uppercase
character, and for every input text, `find_queries` never processes an
occurrence of that member: the per-sentence gate
`sentence.to_lowercase().contains(word)` tests the lowercased sentence
against the member verbatim, and a lowercased sentence contains no
uppercase character, so the member's iteration is a no-op — the scan
result equals the scan with that member skipped outright. -/
theorem c10_uppercase_member_unreachable (m : Str)
    (hm : ∃ c ∈ m, c.isUpper = true)
    (confusionSet : List (List Str)) (text : Str) :
    findQueries confusionSet text = findQueriesExcept m confusionSet text := by
  obtain ⟨c, hcm, hcu⟩ := hm
  have hgate : ∀ s : Str, containsSub (toLowerStr s) m = false := by
    intro s
    by_contra hcon
    rw [Bool.not_eq_false] at hcon
    have hmem := containsSub_mem hcon hcm
    rw [toLowerStr] at hmem
    obtain ⟨x, -, hx⟩ := List.mem_map.mp hmem
    rw [← hx, isUpper_toLower_false] at hcu
    cases hcu
  rw [findQueries, findQueriesExcept]
  apply List.foldl_ext
  intro queries sentence _
  apply List.foldl_ext
  intro queries group _
  apply List.foldl_ext
  intro queries word _
  by_cases hw : word = m
  · subst hw
    rw [if_pos rfl, hgate sentence]
    simp
  · rw [if_neg hw]

/-- Witness for C10: the member `"There"` (uppercase `T`) contributes
nothing to the scan of a text that contains both casings. -/
theorem c10_witness :
    findQueries [["their".toList, "There".toList]]
        "I saw their dog. There was noise.".toList =
      findQueriesExcept "There".toList
        [["their".toList, "There".toList]]
        "I saw their dog. There was noise.".toList :=
  c10_uppercase_member_unreachable "There".toList
    ⟨'T', by decide, by decide⟩ _ _

lemma scoreBuckets_shape {scoreFn : ℚ → ℚ} {N D : List (Int × Int)}
    {unigrams : List (Str × Int)} {d : List (Str × List (Str × Int))}
    {out : List (Str × ℚ)}
    (h : scoreBuckets scoreFn N D unigrams d = some out) :
    ∀ ks ∈ out, ∃ scalar : ℚ, ks.2 = scoreFn scalar := by
  induction d generalizing out with
  | nil =>
    rw [scoreBuckets] at h
    injection h with h
    subst h
    intro ks hks
    cases hks
  | cons kv rest ih =>
    obtain ⟨k, v⟩ := kv
    rw [scoreBuckets] at h
    cases h1 : laplaceGet v N D with
    | none => simp only [h1] at h; cases h
    | some lap =>
      simp only [h1] at h
      cases h2 : lookupAssoc unigrams k with
      | none => simp only [h2] at h; cases h
      | some uf =>
        simp only [h2] at h
        cases h3 : maxScalarLoop uf lap.nGramCounts lap.results (-1) with
        | none => simp only [h3] at h; cases h
        | some scalar =>
          simp only [h3] at h
          cases h4 : scoreBuckets scoreFn N D unigrams rest with
          | none => simp only [h4] at h; cases h
          | some outRest =>
            simp only [h4] at h
            injection h with h
            subst h
            intro ks hks
            rcases List.mem_cons.mp hks with rfl | hm
            · exact ⟨scalar, rfl⟩
            · exact ih h4 ks hm

lemma maxPredict_shape {scoreFn : ℚ → ℚ} {cs : List (List Str)}
    {N D : List (Int × Int)} {data : List SentenceResult}
    {out : List PredictionResult}
    (h : maxPredict scoreFn cs N D data = some out) :
    ∀ pr ∈ out, ∀ ks ∈ pr.results, ∃ scalar : ℚ, ks.2 = scoreFn scalar := by
  induction data generalizing out with
  | nil =>
    rw [maxPredict] at h
    injection h with h
    subst h
    intro pr hpr
    cases hpr
  | cons r rest ih =>
    rw [maxPredict] at h
    cases hf : cs.find? (fun g => g.contains r.word) with
    | none =>
      rw [hf] at h
      exact ih h
    | some g =>
      simp only [hf] at h
      cases hs : scoreBuckets scoreFn N D (partitionRows g r.results).2
          (partitionRows g r.results).1 with
      | none => simp only [hs] at h; cases h
      | some results =>
        simp only [hs] at h
        cases hr : maxPredict scoreFn cs N D rest with
        | none => simp only [hr] at h; cases h
        | some prs =>
          simp only [hr] at h
          injection h with h
          subst h
          intro pr hpr
          rcases List.mem_cons.mp hpr with rfl | hm
          · exact scoreBuckets_shape hs
          · exact ih hr pr hm

/-- The predictor at a concrete input whose smoothed totals are all
zero (`N'[1] = N'[2] = 0`): the `f64` code divides by zero; the model's
junk value for the division is 0, and the run completes normally with
the score `scoreFn 0` — no error of any kind is raised. -/
lemma maxPredict_zero_denominator_eval (scoreFn : ℚ → ℚ) :
    maxPredict scoreFn [["their".toList, "there".toList]]
        [(1, 0), (2, 0)] [(1, 0), (2, 0)]
        [⟨"ctx".toList, "their".toList,
          [⟨"their".toList, 5, 1⟩, ⟨"saw their".toList, 3, 2⟩]⟩] =
      some [⟨"ctx".toList, "their".toList, [("their".toList, scoreFn 0)]⟩] := by
  have hfind : ([["their".toList, "there".toList]].find?
      (fun g => g.contains "their".toList)) =
      some ["their".toList, "there".toList] := by decide
  have hparts : partitionRows ["their".toList, "there".toList]
      [⟨"their".toList, 5, 1⟩, ⟨"saw their".toList, 3, 2⟩] =
      ([("their".toList, [("saw their".toList, 3)])],
        [("their".toList, 5)]) := by decide
  have hlap : laplaceGet [("saw their".toList, 3)] [(1, 0), (2, 0)]
      [(1, 0), (2, 0)] =
      some ⟨[("saw their".toList, 4)], [(1, 0), (2, 0)]⟩ := by decide
  have hlook : lookupAssoc [("their".toList, (5 : Int))] "their".toList =
      some (5 : Int) := by decide
  have hms : maxScalarLoop 5 [(1, 0), (2, 0)] [("saw their".toList, 4)]
      (-1) = some 0 := by
    rw [maxScalarLoop]
    rw [show lookupCount [((1 : Int), (0 : Int)), (2, 0)] 1 = some 0
      from by decide]
    rw [show numTokens "saw their".toList = 2 from by decide]
    rw [show lookupCount [((1 : Int), (0 : Int)), (2, 0)] 2 = some 0
      from by decide]
    norm_num
    rw [maxScalarLoop]
  rw [maxPredict]
  simp only [hfind, hparts, scoreBuckets, hlap, hlook, hms, maxPredict]

/-- **C4 (amended).**  The predictor performs no zero-denominator check
and has no error outcome: whenever `MaxPredictor::predict` returns
results, every score is the log-round transform (`scoreFn`, abstracting
`round(-log10(.) * 10^4) / 10^4` on `f64`) applied to the bucket's max
scalar; with a zero smoothed denominator the scalar is computed from
division-by-zero junk (non-finite in `f64`, 0 in the `ℚ` model) and the
prediction still completes normally — no `DataIntegrity` error exists
in the code. -/
theorem c4_no_zero_denominator_check (scoreFn : ℚ → ℚ)
    (confusionSet : List (List Str)) (N D : List (Int × Int))
    (data : List SentenceResult) (out : List PredictionResult)
    (h : maxPredict scoreFn confusionSet N D data = some out) :
    (∀ pr ∈ out, ∀ ks ∈ pr.results, ∃ scalar : ℚ, ks.2 = scoreFn scalar) ∧
    maxPredict scoreFn [["their".toList, "there".toList]]
        [(1, 0), (2, 0)] [(1, 0), (2, 0)]
        [⟨"ctx".toList, "their".toList,
          [⟨"their".toList, 5, 1⟩, ⟨"saw their".toList, 3, 2⟩]⟩] =
      some [⟨"ctx".toList, "their".toList,
        [("their".toList, scoreFn 0)]⟩] :=
  ⟨maxPredict_shape h, maxPredict_zero_denominator_eval scoreFn⟩

/-- Counterexample for C4 as stated: with `N = Dct = {1 ↦ 0, 2 ↦ 0}`
the smoothed denominators are zero (first conjunct), yet the predictor
returns a normal result carrying a score for the bucket (second
conjunct) — it does not fail with a `DataIntegrity` (or any) error, and
the score is the transform of division-by-zero junk rather than a
finite value of the claimed formula. -/
theorem c4_counterexample :
    addDistinct [(1, 0), (2, 0)] [(1, 0), (2, 0)] =
      some [(1, 0), (2, 0)] ∧
    maxPredict id [["their".toList, "there".toList]]
        [(1, 0), (2, 0)] [(1, 0), (2, 0)]
        [⟨"ctx".toList, "their".toList,
          [⟨"their".toList, 5, 1⟩, ⟨"saw their".toList, 3, 2⟩]⟩] =
      some [⟨"ctx".toList, "their".toList, [("their".toList, 0)]⟩] :=
  ⟨by decide, maxPredict_zero_denominator_eval id⟩

/-- Witness for C4: the theorem applied with `scoreFn = id` at the
empty sentence-result list (where the predictor trivially succeeds). -/
theorem c4_witness :
    (∀ pr ∈ ([] : List PredictionResult), ∀ ks ∈ pr.results,
      ∃ scalar : ℚ, ks.2 = id scalar) ∧
    maxPredict id [["their".toList, "there".toList]]
        [(1, 0), (2, 0)] [(1, 0), (2, 0)]
        [⟨"ctx".toList, "their".toList,
          [⟨"their".toList, 5, 1⟩, ⟨"saw their".toList, 3, 2⟩]⟩] =
      some [⟨"ctx".toList, "their".toList, [("their".toList, id 0)]⟩] :=
  c4_no_zero_denominator_check id [] [] [] [] [] rfl

end NGramCA

section Scratch
open NGramCA
example : toLowerStr "Ab C".toList = "ab c".toList := by decide
example : containsSub "there dog".toList "ere".toList = true := by decide
example : containsSub "there dog".toList "There".toList = false := by decide
example : splitOnChar ',' "1,2".toList = ["1".toList, "2".toList] := by decide
example : splitOnChar ',' "".toList = [[]] := by decide
example : splitOnChar ',' ",1,".toList = [[], "1".toList, []] := by decide
example : splitOn2 '.' ' ' "a b. c d".toList = ["a b".toList, "c d".toList] := by decide
example : splitOn2 '.' ' ' "a.b".toList = ["a.b".toList] := by decide
example : splitWs " a  bc ".toList = ["a".toList, "bc".toList] := by decide
example : trimStr "  a b ".toList = "a b".toList := by decide
example : repeatStr 2 "?, ".toList = "?, ?, ".toList := by decide
example : numTokens "a bb c".toList = 3 := by decide
end Scratch
